import Mathlib

/-!
# Verification of the sorting core of `sorting_animations`

Shallow embedding of the sorting algorithms of `src/sorting.h` and of the
run-session bookkeeping of `src/sorting_animator.cpp`.

Embedding conventions:

* `std::vector<T>` is modelled by `List α`; indexed reads `v[i]` by
  `v.getD i default`.
* Every sort procedure is generic in the element type and the comparator,
  mirroring the C++ templates over `T` and `cmp_fn<T>`.  The instrumented
  comparator of the animator (which, besides returning `x.value <= y.value`,
  sets both highlight timers and forces a redraw) is modelled by its pure
  value part `sort_cmp` together with an explicit count of comparator
  invocations: every sort returns the pair of its result vector and the
  number of times it invoked `cmp` (the number of notifications emitted).
* The parallel variants spawn two threads on disjoint sub-ranges of the
  vector and immediately join both before continuing; since the ranges are
  disjoint, their joint effect on the vector equals running them in
  sequence, which is how they are embedded (the comparison counts add up).
* `std::rand()` (used by the randomized pivot choice) is an external
  oracle; it is modelled by a stream `rng : Nat → Nat` together with a
  threaded position `r` into the stream, one position per `rand()` call.
* Loops over vector indices are embedded as structural recursions over the
  part of the vector the loop ranges over; where an outer loop only ever
  touches the suffix (selection sort) or the prefix (insertion sort) of the
  vector from the loop index on, the recursion is stated on that suffix or
  prefix directly.
-/

namespace SortAnim

/-- The value-ordering comparator: the pure value of the animator's
`sort_cmp` lambda (`sorting_animator.cpp` lines 84-89), which returns
`x.value <= y.value`.  The lambda's side effects (timer writes and the
`sort_draw_data` call) do not touch the values being sorted; the number of
times they fire is the comparison count threaded through every sort
below. -/
def sort_cmp (x y : Int) : Bool := decide (x ≤ y)

/-- Comparator on the first field only, used for the stability scenario:
elements are (key, tag) pairs and only the key is compared. -/
def fst_cmp (x y : Int × Int) : Bool := decide (x.1 ≤ y.1)

/-- A vector is ordered under `cmp` iff the comparator returns `true` on
every adjacent pair of positions. -/
def ordered {α : Type} (cmp : α → α → Bool) (l : List α) : Prop :=
  List.Chain' (fun a b => cmp a b = true) l

/-- The three-assignment swap `temp = v[i]; v[i] = v[j]; v[j] = temp`. -/
def listSwap {α : Type} [Inhabited α] (v : List α) (i j : Nat) : List α :=
  (v.set i (v.getD j default)).set j (v.getD i default)

/-! ## Selection sort (`sorting.h` lines 38-50) -/

/-- Inner loop of `selection_sort` (lines 42-45): scan `j` upward, replace
`smallest` whenever `cmp (v[j], v[smallest])`; one comparator call per
iteration.  Returns the final `smallest` and the comparison count. -/
def sel_scan {α : Type} [Inhabited α] (cmp : α → α → Bool) (v : List α)
    (j smallest : Nat) : Nat × Nat :=
  if _h : j < v.length then
    let s := if cmp (v.getD j default) (v.getD smallest default) then j else smallest
    let r := sel_scan cmp v (j + 1) s
    (r.1, r.2 + 1)
  else (smallest, 0)
termination_by v.length - j

/-- Outer loop of `selection_sort` (lines 40-49), re-based to the suffix
starting at the outer index `i`: each iteration only reads and writes
positions `>= i`, so it is the head step of a recursion on that suffix.
The iteration finds `smallest` in the whole current suffix (scan starts at
`j = i + 1`, i.e. at local index 1, with `smallest = i`, local 0), swaps
positions `i` and `smallest`, and continues with the remaining suffix. -/
def selection_sort_loop {α : Type} [Inhabited α] (cmp : α → α → Bool) :
    List α → List α × Nat
  | [] => ([], 0)
  | x :: xs =>
    let sc := sel_scan cmp (x :: xs) 1 0
    let w := listSwap (x :: xs) 0 sc.1
    let rest := selection_sort_loop cmp w.tail
    (w.headD default :: rest.1, sc.2 + rest.2)
termination_by v => v.length
decreasing_by
  simp only [List.length_tail, listSwap, List.length_set, List.length_cons]
  omega

/-- `selection_sort` (sorting.h line 39). -/
def selection_sort {α : Type} [Inhabited α] (cmp : α → α → Bool) (v : List α) :
    List α × Nat :=
  selection_sort_loop cmp v

/-! ## Insertion sort (`sorting.h` lines 54-70) -/

/-- The scan-and-rotate step of `insertion_sort` (lines 58-67): scan `j`
from 0 while `cmp (v[j], v[i])` (one comparator call per scanned element,
including the failing test), then rotate `v[i]` into position `j`,
shifting `v[j..i-1]` one slot right — i.e. insert `x` in front of the
first prefix element `y` with `cmp y x = false`. -/
def ins_insert {α : Type} (cmp : α → α → Bool) (x : α) : List α → List α × Nat
  | [] => ([x], 0)
  | y :: ys =>
    if cmp y x then
      let r := ins_insert cmp x ys
      (y :: r.1, r.2 + 1)
    else (x :: y :: ys, 1)

/-- Outer loop of `insertion_sort` (lines 56-69) carried on the processed
prefix `v[0..i)` (which the loop body reads via `v[i-1]` and rewrites via
the rotation) and the unprocessed rest: if `cmp (v[i], v[i-1])` (one
call), insert `v[i]` into the prefix, otherwise `v[i]` stays put, i.e. the
prefix grows by `x` at its end. -/
def insertion_sort_loop {α : Type} [Inhabited α] (cmp : α → α → Bool)
    (pre : List α) : List α → List α × Nat
  | [] => (pre, 0)
  | x :: xs =>
    if cmp x (pre.getLastD default) then
      let pr := ins_insert cmp x pre
      let r := insertion_sort_loop cmp pr.1 xs
      (r.1, pr.2 + 1 + r.2)
    else
      let r := insertion_sort_loop cmp (pre ++ [x]) xs
      (r.1, 1 + r.2)

/-- `insertion_sort` (sorting.h line 55): starts at `i = 1`, so the
initial processed prefix is the single head element. -/
def insertion_sort {α : Type} [Inhabited α] (cmp : α → α → Bool) :
    List α → List α × Nat
  | [] => ([], 0)
  | x :: xs => insertion_sort_loop cmp [x] xs

/-! ## Bubble sort (`sorting.h` lines 75-87) -/

/-- Inner loop of `bubble_sort` (lines 79-85): one left-to-right pass over
the first `m` adjacent pairs, swapping whenever `cmp (v[j+1], v[j])`; one
comparator call per pair. -/
def bubble_pass {α : Type} (cmp : α → α → Bool) : List α → Nat → List α × Nat
  | v, 0 => (v, 0)
  | x :: y :: rest, m + 1 =>
    if cmp y x then
      let r := bubble_pass cmp (x :: rest) m
      (y :: r.1, r.2 + 1)
    else
      let r := bubble_pass cmp (y :: rest) m
      (x :: r.1, r.2 + 1)
  | v, _ + 1 => (v, 0)

/-- Outer loop of `bubble_sort` (lines 78-86): iteration `i` of `n` does a
pass over the first `n - i - 1` pairs, so the passes use bounds
`n-1, n-2, ..., 0`; the argument of `bubble_loop` is the number of outer
iterations still to run. -/
def bubble_loop {α : Type} (cmp : α → α → Bool) (v : List α) :
    Nat → List α × Nat
  | 0 => (v, 0)
  | m + 1 =>
    let w := bubble_pass cmp v m
    let r := bubble_loop cmp w.1 m
    (r.1, w.2 + r.2)

/-- `bubble_sort` (sorting.h line 75): returns immediately when
`v.size() <= 1`, otherwise runs `n` passes. -/
def bubble_sort {α : Type} (cmp : α → α → Bool) (v : List α) : List α × Nat :=
  if v.length ≤ 1 then (v, 0) else bubble_loop cmp v v.length

/-! ## Merge sort (`sorting.h` lines 91-135) -/

/-- The sub-range `v[lo..hi)` of the vector. -/
def seg {α : Type} (v : List α) (lo hi : Nat) : List α :=
  (v.drop lo).take (hi - lo)

/-- `std::copy(u.begin(), u.end(), v.begin() + lo)`: overwrite the
`u.length` positions of `v` starting at `lo` with `u`. -/
def writeAt {α : Type} (v : List α) (lo : Nat) (u : List α) : List α :=
  v.take lo ++ u ++ v.drop (lo + u.length)

/-- The merge while-loop of `merge` (lines 98-117), on the two index
ranges `[i1, mid)` and `[i2, hi)` represented by the element lists still
to be consumed: if the left run is exhausted take from the right, if the
right is exhausted take from the left, otherwise one comparator call
decides, preferring the left element when `cmp` returns true. -/
def mergeLoop {α : Type} (cmp : α → α → Bool) :
    List α → List α → List α × Nat
  | [], l2 => (l2, 0)
  | l1, [] => (l1, 0)
  | a :: l1, b :: l2 =>
    if cmp a b then
      let r := mergeLoop cmp l1 (b :: l2)
      (a :: r.1, r.2 + 1)
    else
      let r := mergeLoop cmp (a :: l1) l2
      (b :: r.1, r.2 + 1)

/-- `merge` (sorting.h line 94): recompute `mid`, merge the two halves of
`v[lo..hi)` into the temporary `u`, copy `u` back at `lo`. -/
def merge {α : Type} (cmp : α → α → Bool) (v : List α) (lo hi : Nat) :
    List α × Nat :=
  let mid := lo + (hi - lo) / 2
  let u := mergeLoop cmp (seg v lo mid) (seg v mid hi)
  (writeAt v lo u.1, u.2)

/-- `merge_sort_helper` (sorting.h line 122). -/
def merge_sort_helper {α : Type} (cmp : α → α → Bool) (v : List α)
    (lo hi : Nat) : List α × Nat :=
  if hi - lo ≤ 1 then (v, 0)
  else
    let mid := lo + (hi - lo) / 2
    let r1 := merge_sort_helper cmp v lo mid
    let r2 := merge_sort_helper cmp r1.1 mid hi
    let r3 := merge cmp r2.1 lo hi
    (r3.1, r1.2 + r2.2 + r3.2)
termination_by hi - lo
decreasing_by
  · omega
  · omega

/-- `merge_sort` (sorting.h line 133). -/
def merge_sort {α : Type} (cmp : α → α → Bool) (v : List α) : List α × Nat :=
  merge_sort_helper cmp v 0 v.length

/-! ## Parallel merge sort (`sorting.h` lines 139-157)

`pmerge_sort_helper` spawns its two recursive calls on `[lo, mid)` and
`[mid, hi)` as fresh threads and joins both before merging; the two
threads write disjoint sub-ranges, so their joint effect is that of
running them one after the other, and the comparison counts add. -/

/-- `pmerge_sort_helper` (sorting.h line 142). -/
def pmerge_sort_helper {α : Type} (cmp : α → α → Bool) (v : List α)
    (lo hi : Nat) : List α × Nat :=
  if hi - lo ≤ 1 then (v, 0)
  else
    let mid := lo + (hi - lo) / 2
    let r1 := pmerge_sort_helper cmp v lo mid
    let r2 := pmerge_sort_helper cmp r1.1 mid hi
    let r3 := merge cmp r2.1 lo hi
    (r3.1, r1.2 + r2.2 + r3.2)
termination_by hi - lo
decreasing_by
  · omega
  · omega

/-- `pmerge_sort` (sorting.h line 155). -/
def pmerge_sort {α : Type} (cmp : α → α → Bool) (v : List α) : List α × Nat :=
  pmerge_sort_helper cmp v 0 v.length

/-! ## Quick sort (`sorting.h` lines 161-194) -/

/-- The two temporary buffers `u1`, `u2` of `partition` (lines 166-174):
scan `v[lo..hi)` in order, skipping the pivot position `p`; an element
goes to `u1` when `cmp (v[i], vp)` and to `u2` otherwise. -/
def partitionBuffers {α : Type} [Inhabited α] (cmp : α → α → Bool)
    (v : List α) (lo hi p : Nat) : List α × List α :=
  let vp := v.getD p default
  let scanned := (seg v lo hi).eraseIdx (p - lo)
  (scanned.filter (fun x => cmp x vp), scanned.filter (fun x => !cmp x vp))

/-- `partition` (sorting.h line 164): write `u1`, then the pivot value,
then `u2` back into `v[lo..hi)` and return `u1.size()`.  The result is
the new vector, the returned size, and the comparison count (one call per
scanned element). -/
def partition {α : Type} [Inhabited α] (cmp : α → α → Bool) (v : List α)
    (lo hi p : Nat) : List α × Nat × Nat :=
  let vp := v.getD p default
  let bufs := partitionBuffers cmp v lo hi p
  (writeAt v lo (bufs.1 ++ vp :: bufs.2), bufs.1.length,
    ((seg v lo hi).eraseIdx (p - lo)).length)

/-- The size returned by `partition` is strictly below the range size
whenever the pivot offset is: both recursive sub-ranges of the quicksorts
are therefore strictly smaller than `[lo, hi)`. -/
theorem partition_ret_lt {α : Type} [Inhabited α] (cmp : α → α → Bool)
    (v : List α) (lo hi p : Nat) (hp : p - lo < hi - lo) :
    (partition cmp v lo hi p).2.1 < hi - lo := by
  have hseg : (seg v lo hi).length ≤ hi - lo := by
    simp only [seg, List.length_take, List.length_drop]
    omega
  have hfil : (partition cmp v lo hi p).2.1
      ≤ ((seg v lo hi).eraseIdx (p - lo)).length := by
    simp only [partition, partitionBuffers]
    exact List.length_filter_le _ _
  rcases lt_or_le (p - lo) (seg v lo hi).length with hlt | hle
  · rw [List.length_eraseIdx] at hfil
    simp only [hlt, if_pos] at hfil
    omega
  · rw [List.length_eraseIdx] at hfil
    rw [if_neg (by omega)] at hfil
    omega

/-- `quick_sort_helper` (sorting.h line 182): pivot at the midpoint. -/
def quick_sort_helper {α : Type} [Inhabited α] (cmp : α → α → Bool)
    (v : List α) (lo hi : Nat) : List α × Nat :=
  if hhl : hi - lo ≤ 1 then (v, 0)
  else
    let pr := partition cmp v lo hi (lo + (hi - lo) / 2)
    let r1 := quick_sort_helper cmp pr.1 lo (lo + pr.2.1)
    let r2 := quick_sort_helper cmp r1.1 (lo + pr.2.1 + 1) hi
    (r2.1, pr.2.2 + r1.2 + r2.2)
termination_by hi - lo
decreasing_by
  · have := partition_ret_lt cmp v lo hi (lo + (hi - lo) / 2) (by omega)
    omega
  · omega

/-- `quick_sort` (sorting.h line 192). -/
def quick_sort {α : Type} [Inhabited α] (cmp : α → α → Bool) (v : List α) :
    List α × Nat :=
  quick_sort_helper cmp v 0 v.length

/-! ## Parallel quick sort (`sorting.h` lines 198-215)

After partitioning, the two recursive calls run on the spawned `head` and
`tail` threads, joined before returning; the sub-ranges `[lo, lo+p)` and
`[lo+p+1, hi)` are disjoint, so the joint effect is sequential. -/

/-- `pquick_sort_helper` (sorting.h line 201). -/
def pquick_sort_helper {α : Type} [Inhabited α] (cmp : α → α → Bool)
    (v : List α) (lo hi : Nat) : List α × Nat :=
  if hhl : hi - lo ≤ 1 then (v, 0)
  else
    let pr := partition cmp v lo hi (lo + (hi - lo) / 2)
    let r1 := pquick_sort_helper cmp pr.1 lo (lo + pr.2.1)
    let r2 := pquick_sort_helper cmp r1.1 (lo + pr.2.1 + 1) hi
    (r2.1, pr.2.2 + r1.2 + r2.2)
termination_by hi - lo
decreasing_by
  · have := partition_ret_lt cmp v lo hi (lo + (hi - lo) / 2) (by omega)
    omega
  · omega

/-- `pquick_sort` (sorting.h line 213). -/
def pquick_sort {α : Type} [Inhabited α] (cmp : α → α → Bool) (v : List α) :
    List α × Nat :=
  pquick_sort_helper cmp v 0 v.length

/-! ## Randomized parallel quick sort (`sorting.h` lines 219-236) -/

/-- `rpquick_sort_helper` (sorting.h line 222): pivot index
`rand() % (hi - lo) + lo`; the `rand()` stream is the oracle `rng`, read
at position `r`, and the position after all the `rand()` calls of the
whole recursion is threaded through (left sub-call first, then right, as
the spawned threads both draw from the same global `rand()` stream). -/
def rpquick_sort_helper {α : Type} [Inhabited α] (cmp : α → α → Bool)
    (rng : Nat → Nat) (v : List α) (lo hi r : Nat) : List α × Nat × Nat :=
  if hhl : hi - lo ≤ 1 then (v, 0, r)
  else
    let pr := partition cmp v lo hi (rng r % (hi - lo) + lo)
    let r1 := rpquick_sort_helper cmp rng pr.1 lo (lo + pr.2.1) (r + 1)
    let r2 := rpquick_sort_helper cmp rng r1.1 (lo + pr.2.1 + 1) hi r1.2.2
    (r2.1, pr.2.2 + r1.2.1 + r2.2.1, r2.2.2)
termination_by hi - lo
decreasing_by
  · have := partition_ret_lt cmp v lo hi (rng r % (hi - lo) + lo)
      (by have := Nat.mod_lt (rng r) (y := hi - lo) (by omega); omega)
    omega
  · omega

/-- `rpquick_sort` (sorting.h line 234). -/
def rpquick_sort {α : Type} [Inhabited α] (cmp : α → α → Bool)
    (rng : Nat → Nat) (v : List α) (r : Nat) : List α × Nat × Nat :=
  rpquick_sort_helper cmp rng v 0 v.length r

/-- Fuel-indexed mirror of `rpquick_sort_helper`, used to state that the
recursion terminates: `none` means the fuel ran out before the recursion
reached its size-`<= 1` base cases. -/
def rpquick_sort_fuel {α : Type} [Inhabited α] (cmp : α → α → Bool)
    (rng : Nat → Nat) : Nat → List α → Nat → Nat → Nat →
    Option (List α × Nat × Nat)
  | 0, _, _, _, _ => none
  | fuel + 1, v, lo, hi, r =>
    if hi - lo ≤ 1 then some (v, 0, r)
    else
      let pr := partition cmp v lo hi (rng r % (hi - lo) + lo)
      (rpquick_sort_fuel cmp rng fuel pr.1 lo (lo + pr.2.1) (r + 1)).bind
        (fun s1 =>
          (rpquick_sort_fuel cmp rng fuel s1.1 (lo + pr.2.1 + 1) hi
            s1.2.2).bind
            (fun s2 => some (s2.1, pr.2.2 + s1.2.1 + s2.2.1, s2.2.2)))

/-- Proof-infrastructure generalization of the three quicksort helpers:
the pivot index is produced by a pivot policy `pick lo hi r` (clamped into
the range, which is invisible for the three instances, whose pivots are
always in range) and the `rand()` stream position `r` is threaded exactly
as in `rpquick_sort_helper`.  `quick_sort_helper`, `pquick_sort_helper`
and `rpquick_sort_helper` are proved equal to instances of this
recursion, so its correctness proof covers all three. -/
def quick_sort_gen {α : Type} [Inhabited α] (cmp : α → α → Bool)
    (pick : Nat → Nat → Nat → Nat) (v : List α) (lo hi r : Nat) :
    List α × Nat × Nat :=
  if hhl : hi - lo ≤ 1 then (v, 0, r)
  else
    let pr := partition cmp v lo hi (min (pick lo hi r) (hi - 1))
    let r1 := quick_sort_gen cmp pick pr.1 lo (lo + pr.2.1) (r + 1)
    let r2 := quick_sort_gen cmp pick r1.1 (lo + pr.2.1 + 1) hi r1.2.2
    (r2.1, pr.2.2 + r1.2.1 + r2.2.1, r2.2.2)
termination_by hi - lo
decreasing_by
  · have hmin : min (pick lo hi r) (hi - 1) ≤ hi - 1 := Nat.min_le_right _ _
    have := partition_ret_lt cmp v lo hi (min (pick lo hi r) (hi - 1))
      (by omega)
    omega
  · omega

/-! ## `std::sort` (`sorting.h` lines 240-243) -/

/-- Modelled from the spec: `std_sort` delegates to `std::sort`, the host
environment's general-purpose comparison sort from `<algorithm>`, whose
implementation is not part of this repository.  Following the spec's
contract for the baseline sort ("delegates to the host environment's
general-purpose comparison sort, using the same InstrumentedComparator"),
the host sort is modelled by the general-purpose comparison sort embedded
above (the merge sort), run with the same comparator (so it performs no
comparator call on an empty vector and sorts per the comparator). -/
def std_sort {α : Type} (cmp : α → α → Bool) (v : List α) : List α × Nat :=
  merge_sort cmp v

/-! ## The animator's run session (`sorting_animator.cpp`)

Only the value-level bookkeeping of the sorting session is embedded: the
datasets hold the `value` fields of the `SortingDatum` rows, a sort
procedure is a function on such value rows, and thread handles are
counted.  The embedded operations model the session as entered from a
cleared state (`sort_data`, `sort_queue`, `sort_threads` empty), which is
what the UI guarantees: they are emptied by `handle_key_sorted` before
returning to the config screen and start empty. -/

/-- `Mode` (sorting_animator.h line 73). -/
inductive Mode
  | START
  | HELP
  | CONFIG
  | SORTING
  | SORTED
deriving DecidableEq

/-- `SortingAlgo` (sorting_animator.h line 93), value level: the display
name is irrelevant here, the procedure acts on the value rows. -/
structure SortingAlgo where
  selected : Bool
  sort : List Int → List Int

instance : Inhabited SortingAlgo := ⟨⟨false, id⟩⟩

/-- The session-relevant state of `SortingAnimator`
(sorting_animator.h lines 110-276). -/
structure SortingAnimator where
  mode : Mode
  sort_n : Nat
  sort_algos : List SortingAlgo
  sort_data : List (List Int)
  sort_queue : List Nat
  sort_threads : Nat

/-- The indices of the selected algorithms, in registration order
(`sort_setup` lines 703-708 pushes `i` for each selected `sort_algos[i]`). -/
def selectedIdxs (algos : List SortingAlgo) : List Nat :=
  (List.range algos.length).filter (fun i => (algos.getD i default).selected)

/-- `SortingAnimator::sort_setup` (sorting_animator.cpp lines 702-730),
from a cleared session state: push one queue index and one thread handle
per selected algorithm; if none is selected, return with mode `SORTED`
and no datasets; otherwise build dataset 0 as a shuffled permutation of
`1..n` (the `std::random_shuffle` outcome is the oracle `shuffled`) and
datasets `1..queue.size()` as copies of dataset 0's values. -/
def sort_setup (s : SortingAnimator) (shuffled : List Int) : SortingAnimator :=
  let q := selectedIdxs s.sort_algos
  if q.length = 0 then
    { s with sort_queue := q, sort_threads := q.length, mode := Mode.SORTED }
  else
    { s with
        sort_queue := q
        sort_threads := q.length
        sort_data := shuffled :: List.replicate q.length shuffled }

/-- `SortingAnimator::sort_launch` (sorting_animator.cpp lines 733-745):
thread `i` (for `i < sort_queue.size()`) sorts `sort_data[i]` with
algorithm `sort_algos[sort_queue[i]]`; all threads are joined, then the
mode becomes `SORTED`.  Each dataset is mutated by exactly the one thread
that owns it and datasets at indices `>= sort_queue.size()` are not
touched, so the joint effect of the join is per-index application. -/
def sort_launch (s : SortingAnimator) : SortingAnimator :=
  { s with
      sort_data := (List.range s.sort_data.length).map (fun i =>
        if i < s.sort_queue.length then
          (s.sort_algos.getD (s.sort_queue.getD i 0) default).sort
            (s.sort_data.getD i [])
        else s.sort_data.getD i [])
      mode := Mode.SORTED }

/-- The `R` branch of `SortingAnimator::handle_key_sorted`
(sorting_animator.cpp lines 462-467): for every `i < sort_queue.size()`
and `j < sort_n`, assign
`sort_data[i][j].value = sort_data[sort_queue.size()][j].value`, then
re-enter mode `SORTING`.  Row entries beyond `sort_n` (none exist in a
well-formed session) are left in place. -/
def handle_key_sorted_R (s : SortingAnimator) : SortingAnimator :=
  { s with
      sort_data := (List.range s.sort_data.length).map (fun i =>
        if i < s.sort_queue.length then
          (List.range s.sort_n).map (fun j =>
            (s.sort_data.getD s.sort_queue.length []).getD j 0)
            ++ (s.sort_data.getD i []).drop s.sort_n
        else s.sort_data.getD i [])
      mode := Mode.SORTING }

/-! ## Publish serialization (`sorting_animator.cpp` lines 747-780)

`SortingAnimator::sort_draw_data` is the only publish path; its entire
body runs between `window_m.lock()` and `window_m.unlock()`.  The lock
discipline is embedded as a transition system: each sort thread is either
outside `sort_draw_data` (`idle`) or inside the locked body
(`publishing`); entering requires the mutex to be free and takes it,
leaving releases it.  A blocked `lock()` call is modelled by the `acquire`
transition simply not being enabled. -/

/-- Where a sort thread stands with respect to `sort_draw_data`. -/
inductive PubPC
  | idle
  | publishing
deriving DecidableEq

/-- The mutex `window_m` plus the per-thread program counters. -/
structure PubState where
  lock : Bool
  pcs : List PubPC
deriving DecidableEq

/-- One transition of the publish system. -/
inductive PubStep : PubState → PubState → Prop
  | acquire (s : PubState) (i : Nat) (hi : i < s.pcs.length)
      (hpc : s.pcs.getD i PubPC.idle = PubPC.idle) (hl : s.lock = false) :
      PubStep s ⟨true, s.pcs.set i PubPC.publishing⟩
  | release (s : PubState) (i : Nat) (hi : i < s.pcs.length)
      (hpc : s.pcs.getD i PubPC.idle = PubPC.publishing) :
      PubStep s ⟨false, s.pcs.set i PubPC.idle⟩

/-- Initial state: mutex free, every thread outside `sort_draw_data`. -/
def pubInit (n : Nat) : PubState := ⟨false, List.replicate n PubPC.idle⟩

/-- Reachability of the publish system from its initial state. -/
def PubReach (n : Nat) (s : PubState) : Prop :=
  Relation.ReflTransGen PubStep (pubInit n) s

/-! ## Generic list and comparator lemmas -/

section Lemmas

variable {α : Type} [Inhabited α] {cmp : α → α → Bool}

theorem cmp_self (htot : ∀ a b, cmp a b = true ∨ cmp b a = true) (a : α) :
    cmp a a = true := by
  rcases htot a a with h | h <;> exact h

theorem getD_mem {l : List α} {i : Nat} (h : i < l.length) (d : α) :
    l.getD i d ∈ l := by
  rw [List.getD_eq_getElem l d h]
  exact List.getElem_mem h

theorem headD_cons_tail {l : List α} (h : l ≠ []) (d : α) :
    l.headD d :: l.tail = l := by
  cases l with
  | nil => exact absurd rfl h
  | cons x xs => rfl

theorem mem_of_mem_tail {l : List α} {y : α} (h : y ∈ l.tail) : y ∈ l := by
  cases l with
  | nil => simpa using h
  | cons x xs => exact List.mem_cons_of_mem x h

/-! ## Selection sort: correctness -/

theorem sel_scan_spec (htot : ∀ a b, cmp a b = true ∨ cmp b a = true)
    (htrans : ∀ a b c, cmp a b = true → cmp b c = true → cmp a c = true)
    (v : List α) :
    ∀ n j s, v.length - j ≤ n → s < v.length →
      (sel_scan cmp v j s).1 < v.length ∧
      cmp (v.getD (sel_scan cmp v j s).1 default) (v.getD s default) = true ∧
      (∀ m, j ≤ m → m < v.length →
        cmp (v.getD (sel_scan cmp v j s).1 default) (v.getD m default) = true) ∧
      (sel_scan cmp v j s).2 = v.length - j := by
  intro n
  induction n with
  | zero =>
    intro j s hn hs
    have hj : ¬ j < v.length := by omega
    rw [sel_scan, dif_neg hj]
    refine ⟨hs, cmp_self htot _, fun m hm hmv => absurd hmv (by omega), by omega⟩
  | succ n ih =>
    intro j s hn hs
    by_cases hj : j < v.length
    · have hsplit : (sel_scan cmp v j s) =
        ((sel_scan cmp v (j + 1)
            (if cmp (v.getD j default) (v.getD s default) then j else s)).1,
         (sel_scan cmp v (j + 1)
            (if cmp (v.getD j default) (v.getD s default) then j else s)).2 + 1) := by
        rw [sel_scan, dif_pos hj]
      by_cases hc : cmp (v.getD j default) (v.getD s default) = true
      · rw [if_pos hc] at hsplit
        obtain ⟨h1, h2, h3, h4⟩ := ih (j + 1) j (by omega) hj
        rw [hsplit]
        refine ⟨h1, htrans _ _ _ h2 hc, fun m hm hmv => ?_, by omega⟩
        rcases Nat.eq_or_lt_of_le hm with rfl | hm'
        · exact h2
        · exact h3 m hm' hmv
      · rw [if_neg hc] at hsplit
        have hsj : cmp (v.getD s default) (v.getD j default) = true := by
          rcases htot (v.getD j default) (v.getD s default) with h | h
          · exact absurd h hc
          · exact h
        obtain ⟨h1, h2, h3, h4⟩ := ih (j + 1) s (by omega) hs
        rw [hsplit]
        refine ⟨h1, h2, fun m hm hmv => ?_, by omega⟩
        rcases Nat.eq_or_lt_of_le hm with rfl | hm'
        · exact htrans _ _ _ h2 hsj
        · exact h3 m hm' hmv
    · rw [sel_scan, dif_neg hj]
      refine ⟨hs, cmp_self htot _, fun m hm hmv => absurd hmv (by omega), by omega⟩

theorem cons_set_perm (x : α) : ∀ (xs : List α) (t : Nat), t < xs.length →
    List.Perm (xs.getD t default :: xs.set t x) (x :: xs) := by
  intro xs
  induction xs with
  | nil => intro t ht; simp at ht
  | cons y ys ih =>
    intro t ht
    cases t with
    | zero => simpa using List.Perm.swap x y ys
    | succ t =>
      have ht' : t < ys.length := by simpa using ht
      have h1 : List.Perm (ys.getD t default :: y :: ys.set t x)
          (y :: ys.getD t default :: ys.set t x) := List.Perm.swap _ _ _
      have h2 : List.Perm (y :: ys.getD t default :: ys.set t x)
          (y :: x :: ys) := List.Perm.cons y (ih t ht')
      have h3 : List.Perm (y :: x :: ys) (x :: y :: ys) := List.Perm.swap _ _ _
      exact (h1.trans h2).trans h3

theorem listSwap_zero_succ (x : α) (xs : List α) (t : Nat) :
    listSwap (x :: xs) 0 (t + 1) = xs.getD t default :: xs.set t x := by
  simp [listSwap]

theorem listSwap_zero_zero (x : α) (xs : List α) :
    listSwap (x :: xs) 0 0 = x :: xs := by
  simp [listSwap]

theorem listSwap_zero_perm (x : α) (xs : List α) {s : Nat}
    (hs : s < (x :: xs).length) :
    List.Perm (listSwap (x :: xs) 0 s) (x :: xs) := by
  cases s with
  | zero => rw [listSwap_zero_zero]
  | succ t =>
    rw [listSwap_zero_succ]
    exact cons_set_perm x xs t (by simpa using hs)

theorem listSwap_zero_headD (x : α) (xs : List α) {s : Nat}
    (hs : s < (x :: xs).length) :
    (listSwap (x :: xs) 0 s).headD default = (x :: xs).getD s default := by
  cases s with
  | zero => rw [listSwap_zero_zero]; rfl
  | succ t => rw [listSwap_zero_succ]; rfl

theorem selection_sort_loop_spec
    (htot : ∀ a b, cmp a b = true ∨ cmp b a = true)
    (htrans : ∀ a b c, cmp a b = true → cmp b c = true → cmp a c = true) :
    ∀ (n : Nat) (v : List α), v.length ≤ n →
      List.Perm (selection_sort_loop cmp v).1 v ∧
      ordered cmp (selection_sort_loop cmp v).1 := by
  intro n
  induction n with
  | zero =>
    intro v hv
    have : v = [] := List.length_eq_zero.mp (by omega)
    subst this
    simp [selection_sort_loop, ordered]
  | succ n ih =>
    intro v hv
    cases v with
    | nil => simp [selection_sort_loop, ordered]
    | cons x xs =>
      obtain ⟨hslt, hs0, hall, -⟩ :=
        sel_scan_spec htot htrans (x :: xs) (x :: xs).length 1 0 (by omega)
          (by simp)
      have hloop : (selection_sort_loop cmp (x :: xs)) =
          ((listSwap (x :: xs) 0 (sel_scan cmp (x :: xs) 1 0).1).headD default ::
            (selection_sort_loop cmp
              (listSwap (x :: xs) 0 (sel_scan cmp (x :: xs) 1 0).1).tail).1,
           (sel_scan cmp (x :: xs) 1 0).2 +
            (selection_sort_loop cmp
              (listSwap (x :: xs) 0 (sel_scan cmp (x :: xs) 1 0).1).tail).2) := by
        rw [selection_sort_loop]
      have hwperm : List.Perm (listSwap (x :: xs) 0 (sel_scan cmp (x :: xs) 1 0).1)
          (x :: xs) := listSwap_zero_perm x xs hslt
      have hwlen : (listSwap (x :: xs) 0 (sel_scan cmp (x :: xs) 1 0).1).length =
          (x :: xs).length := hwperm.length_eq
      have hwne : listSwap (x :: xs) 0 (sel_scan cmp (x :: xs) 1 0).1 ≠ [] := by
        intro hcon
        rw [hcon] at hwlen
        simp at hwlen
      obtain ⟨ihperm, ihord⟩ := ih
        (listSwap (x :: xs) 0 (sel_scan cmp (x :: xs) 1 0).1).tail
        (by
          rw [List.length_tail, hwlen]
          simp only [List.length_cons] at hv ⊢
          omega)
      have hmin : ∀ y ∈ (x :: xs),
          cmp ((x :: xs).getD (sel_scan cmp (x :: xs) 1 0).1 default) y = true := by
        intro y hy
        obtain ⟨i, hi, rfl⟩ := List.mem_iff_getElem.mp hy
        rw [← List.getD_eq_getElem (x :: xs) default hi]
        rcases Nat.eq_zero_or_pos i with rfl | hipos
        · exact hs0
        · exact hall i hipos hi
      constructor
      · rw [hloop]
        refine List.Perm.trans ?_ hwperm
        rw [listSwap_zero_headD x xs hslt]
        refine List.Perm.trans (List.Perm.cons _ ihperm) ?_
        rw [← listSwap_zero_headD x xs hslt, headD_cons_tail hwne]
      · rw [hloop]
        simp only [ordered] at ihord ⊢
        rw [List.chain'_cons']
        refine ⟨fun y hy => ?_, ihord⟩
        rw [listSwap_zero_headD x xs hslt]
        apply hmin
        have hy1 : y ∈ (selection_sort_loop cmp
            (listSwap (x :: xs) 0 (sel_scan cmp (x :: xs) 1 0).1).tail).1 :=
          List.mem_of_mem_head? hy
        exact hwperm.subset (mem_of_mem_tail (ihperm.subset hy1))

theorem selection_sort_perm_ordered
    (htot : ∀ a b, cmp a b = true ∨ cmp b a = true)
    (htrans : ∀ a b c, cmp a b = true → cmp b c = true → cmp a c = true)
    (v : List α) :
    List.Perm (selection_sort cmp v).1 v ∧ ordered cmp (selection_sort cmp v).1 :=
  selection_sort_loop_spec htot htrans v.length v le_rfl

/-! ## Insertion sort: correctness -/

theorem ins_insert_head (x : α) (l : List α) :
    (ins_insert cmp x l).1.head? = some x ∨ (ins_insert cmp x l).1.head? = l.head? := by
  cases l with
  | nil => left; rfl
  | cons y ys =>
    rw [ins_insert]
    by_cases hc : cmp y x = true
    · right; rw [if_pos hc]; rfl
    · left; rw [if_neg hc]; rfl

theorem ins_insert_spec (htot : ∀ a b, cmp a b = true ∨ cmp b a = true)
    (x : α) (l : List α) :
    List.Perm (ins_insert cmp x l).1 (x :: l) ∧
      (ordered cmp l → ordered cmp (ins_insert cmp x l).1) := by
  induction l with
  | nil => simp [ins_insert, ordered]
  | cons y ys ih =>
    rw [ins_insert]
    by_cases hc : cmp y x = true
    · rw [if_pos hc]
      constructor
      · exact (List.Perm.cons y ih.1).trans (List.Perm.swap _ _ _)
      · intro hord
        rw [ordered, List.chain'_cons']
        rw [ordered, List.chain'_cons'] at hord
        refine ⟨fun z hz => ?_, ih.2 hord.2⟩
        rcases @ins_insert_head _ _ cmp x ys with hh | hh
        · rw [hh] at hz
          simp only [Option.mem_def, Option.some.injEq] at hz
          subst hz
          exact hc
        · rw [hh] at hz
          exact hord.1 z hz
    · rw [if_neg hc]
      have hxy : cmp x y = true := by
        rcases htot x y with h | h
        · exact h
        · exact absurd h hc
      constructor
      · exact List.Perm.refl _
      · intro hord
        rw [ordered, List.chain'_cons']
        refine ⟨fun z hz => ?_, hord⟩
        simp only [List.head?_cons, Option.mem_def, Option.some.injEq] at hz
        subst hz
        exact hxy

theorem insertion_sort_loop_spec (htot : ∀ a b, cmp a b = true ∨ cmp b a = true) :
    ∀ (rest pre : List α), pre ≠ [] → ordered cmp pre →
      List.Perm (insertion_sort_loop cmp pre rest).1 (pre ++ rest) ∧
      ordered cmp (insertion_sort_loop cmp pre rest).1 := by
  intro rest
  induction rest with
  | nil =>
    intro pre hne hord
    rw [insertion_sort_loop]
    exact ⟨by simp, hord⟩
  | cons x xs ih =>
    intro pre hne hord
    rw [insertion_sort_loop]
    by_cases hg : cmp x (pre.getLastD default) = true
    · rw [if_pos hg]
      obtain ⟨hperm, hordf⟩ := ins_insert_spec htot x pre
      have hne2 : (ins_insert cmp x pre).1 ≠ [] := by
        intro hcon
        have := hperm.length_eq
        rw [hcon] at this
        simp at this
      obtain ⟨ihp, iho⟩ := ih (ins_insert cmp x pre).1 hne2 (hordf hord)
      refine ⟨ihp.trans ?_, iho⟩
      exact (List.Perm.append_right xs hperm).trans List.perm_middle.symm
    · rw [if_neg hg]
      have hlast : cmp (pre.getLastD default) x = true := by
        rcases htot x (pre.getLastD default) with h | h
        · exact absurd h hg
        · exact h
      have hordx : ordered cmp (pre ++ [x]) := by
        rw [ordered, List.chain'_append]
        refine ⟨hord, List.chain'_singleton x, fun a ha b hb => ?_⟩
        simp only [List.head?_cons, Option.mem_def, Option.some.injEq] at hb
        subst hb
        rw [List.getLastD_eq_getLast?] at hlast
        simp only [Option.mem_def] at ha
        rw [ha] at hlast
        exact hlast
      obtain ⟨ihp, iho⟩ := ih (pre ++ [x]) (by simp) hordx
      refine ⟨ihp.trans ?_, iho⟩
      rw [List.append_assoc]
      exact List.Perm.refl _

theorem insertion_sort_perm_ordered
    (htot : ∀ a b, cmp a b = true ∨ cmp b a = true) (v : List α) :
    List.Perm (insertion_sort cmp v).1 v ∧ ordered cmp (insertion_sort cmp v).1 := by
  cases v with
  | nil => simp [insertion_sort, ordered]
  | cons x xs =>
    have h := insertion_sort_loop_spec htot xs [x] (by simp)
      (List.chain'_singleton x)
    simpa [insertion_sort] using h

/-! ## Bubble sort: correctness -/

theorem ordered_short {l : List α} (h : l.length ≤ 1) : ordered cmp l := by
  match l, h with
  | [], _ => exact List.chain'_nil
  | [a], _ => exact List.chain'_singleton a

theorem take_subset_take {l : List α} {m n : Nat} (h : m ≤ n) :
    l.take m ⊆ l.take n := by
  intro x hx
  have heq : l.take m = (l.take n).take m := by
    rw [List.take_take, Nat.min_eq_left h]
  rw [heq] at hx
  exact List.take_subset m (l.take n) hx

theorem getD_take {l : List α} {m n : Nat} (h : m < n) (d : α) :
    (l.take n).getD m d = l.getD m d := by
  rcases lt_or_le m l.length with hm | hm
  · have hm' : m < (l.take n).length := by simp; omega
    rw [List.getD_eq_getElem _ d hm', List.getD_eq_getElem _ d hm]
    exact List.getElem_take _
  · have hm' : ¬ m < (l.take n).length := by simp; omega
    rw [List.getD_eq_default _ d (by omega), List.getD_eq_default _ d (by simp at hm' ⊢; omega)]

theorem bubble_pass_perm : ∀ (m : Nat) (v : List α),
    List.Perm (bubble_pass cmp v m).1 v := by
  intro m
  induction m with
  | zero => intro v; rw [bubble_pass]
  | succ m ih =>
    intro v
    match v with
    | [] => rw [bubble_pass] <;> intro a b l h <;> simp at h
    | [x] => rw [bubble_pass] <;> intro a b l h <;> simp at h
    | x :: y :: rest =>
      rw [bubble_pass]
      by_cases hc : cmp y x = true
      · rw [if_pos hc]
        exact (List.Perm.cons y (ih (x :: rest))).trans (List.Perm.swap _ _ _)
      · rw [if_neg hc]
        exact List.Perm.cons x (ih (y :: rest))

theorem bubble_pass_drop : ∀ (m : Nat) (v : List α),
    (bubble_pass cmp v m).1.drop (m + 1) = v.drop (m + 1) := by
  intro m
  induction m with
  | zero => intro v; rw [bubble_pass]
  | succ m ih =>
    intro v
    match v with
    | [] => rw [bubble_pass] <;> intro a b l h <;> simp at h
    | [x] => rw [bubble_pass] <;> intro a b l h <;> simp at h
    | x :: y :: rest =>
      rw [bubble_pass]
      by_cases hc : cmp y x = true
      · rw [if_pos hc]
        simpa using ih (x :: rest)
      · rw [if_neg hc]
        simpa using ih (y :: rest)

theorem bubble_pass_take_perm (m : Nat) (v : List α) :
    List.Perm ((bubble_pass cmp v m).1.take (m + 1)) (v.take (m + 1)) := by
  apply (List.perm_append_right_iff (List.drop (m + 1) v)).mp
  have h2 : (bubble_pass cmp v m).1.take (m + 1) ++ List.drop (m + 1) v =
      (bubble_pass cmp v m).1 := by
    rw [← @bubble_pass_drop _ _ cmp m v]
    exact List.take_append_drop _ _
  rw [h2, List.take_append_drop]
  exact bubble_pass_perm m v

theorem bubble_pass_max
    (htot : ∀ a b, cmp a b = true ∨ cmp b a = true)
    (htrans : ∀ a b c, cmp a b = true → cmp b c = true → cmp a c = true) :
    ∀ (m : Nat) (v : List α), m + 1 ≤ v.length →
      ∀ y ∈ (bubble_pass cmp v m).1.take (m + 1),
        cmp y ((bubble_pass cmp v m).1.getD m default) = true := by
  intro m
  induction m with
  | zero =>
    intro v hv y hy
    obtain ⟨a, rest, rfl⟩ : ∃ a rest, v = a :: rest := by
      cases v with
      | nil => simp at hv
      | cons a rest => exact ⟨a, rest, rfl⟩
    rw [bubble_pass] at hy ⊢
    simp only [List.take_cons_succ, List.take_zero, List.mem_singleton] at hy
    subst hy
    exact cmp_self htot _
  | succ m ih =>
    intro v hv y hy
    obtain ⟨x, z, rest, rfl⟩ : ∃ x z rest, v = x :: z :: rest := by
      match v, hv with
      | x :: z :: rest, _ => exact ⟨x, z, rest, rfl⟩
    · have hlen : m + 1 ≤ rest.length + 1 := by
        simp only [List.length_cons] at hv
        omega
      rw [bubble_pass] at hy ⊢
      by_cases hc : cmp z x = true
      · rw [if_pos hc] at hy ⊢
        simp only [List.take_cons_succ, List.mem_cons] at hy
        have hgd : (z :: (bubble_pass cmp (x :: rest) m).1).getD (m + 1) default =
            (bubble_pass cmp (x :: rest) m).1.getD m default := by
          rw [List.getD_cons_succ]
        rw [hgd]
        have hcmem : (x : α) ∈ (bubble_pass cmp (x :: rest) m).1.take (m + 1) := by
          have hp := @bubble_pass_take_perm _ _ cmp m (x :: rest)
          apply hp.mem_iff.mpr
          rw [List.take_cons_succ]
          exact List.mem_cons_self x _
        have hcx : cmp x ((bubble_pass cmp (x :: rest) m).1.getD m default) = true :=
          ih (x :: rest) (by simpa using hlen) x hcmem
        rcases hy with rfl | hy
        · exact htrans _ _ _ hc hcx
        · exact ih (x :: rest) (by simpa using hlen) y hy
      · rw [if_neg hc] at hy ⊢
        have hxz : cmp x z = true := by
          rcases htot x z with h | h
          · exact h
          · exact absurd h hc
        simp only [List.take_cons_succ, List.mem_cons] at hy
        have hgd : (x :: (bubble_pass cmp (z :: rest) m).1).getD (m + 1) default =
            (bubble_pass cmp (z :: rest) m).1.getD m default := by
          rw [List.getD_cons_succ]
        rw [hgd]
        have hcmem : (z : α) ∈ (bubble_pass cmp (z :: rest) m).1.take (m + 1) := by
          have hp := @bubble_pass_take_perm _ _ cmp m (z :: rest)
          apply hp.mem_iff.mpr
          rw [List.take_cons_succ]
          exact List.mem_cons_self z _
        have hcx : cmp z ((bubble_pass cmp (z :: rest) m).1.getD m default) = true :=
          ih (z :: rest) (by simpa using hlen) z hcmem
        rcases hy with rfl | hy
        · exact htrans _ _ _ hxz hcx
        · exact ih (z :: rest) (by simpa using hlen) y hy

theorem bubble_loop_spec
    (htot : ∀ a b, cmp a b = true ∨ cmp b a = true)
    (htrans : ∀ a b c, cmp a b = true → cmp b c = true → cmp a c = true) :
    ∀ (m : Nat) (v : List α), m ≤ v.length →
      ordered cmp (v.drop m) →
      (∀ a ∈ v.take m, ∀ b ∈ v.drop m, cmp a b = true) →
      List.Perm (bubble_loop cmp v m).1 v ∧ ordered cmp (bubble_loop cmp v m).1 := by
  intro m
  induction m with
  | zero =>
    intro v hm hord hbound
    rw [bubble_loop]
    exact ⟨List.Perm.refl _, by simpa using hord⟩
  | succ m ih =>
    intro v hm hord hbound
    rw [bubble_loop]
    have hperm := @bubble_pass_perm _ _ cmp m v
    have hlen : (bubble_pass cmp v m).1.length = v.length := hperm.length_eq
    have hdrop := @bubble_pass_drop _ _ cmp m v
    have htk := @bubble_pass_take_perm _ _ cmp m v
    have hmax := bubble_pass_max htot htrans m v hm
    have hmlt : m < (bubble_pass cmp v m).1.length := by omega
    have hgdmem : (bubble_pass cmp v m).1.getD m default ∈
        (bubble_pass cmp v m).1.take (m + 1) := by
      have hlt : m < ((bubble_pass cmp v m).1.take (m + 1)).length := by
        simp only [List.length_take]
        omega
      have := getD_mem hlt (default : α)
      rwa [getD_take (by omega)] at this
    have hgdv : (bubble_pass cmp v m).1.getD m default ∈ v.take (m + 1) :=
      htk.subset hgdmem
    have hdropw : (bubble_pass cmp v m).1.drop m =
        (bubble_pass cmp v m).1.getD m default :: v.drop (m + 1) := by
      rw [List.drop_eq_getElem_cons hmlt, hdrop, List.getD_eq_getElem _ default hmlt]
    obtain ⟨ihp, iho⟩ := ih (bubble_pass cmp v m).1 (by omega)
      (by
        rw [hdropw, ordered, List.chain'_cons']
        constructor
        · intro b hb
          exact hbound _ hgdv b (List.mem_of_mem_head? hb)
        · exact hord)
      (by
        intro a ha b hb
        rw [hdropw] at hb
        have hatk : a ∈ (bubble_pass cmp v m).1.take (m + 1) :=
          take_subset_take (by omega) ha
        rcases List.mem_cons.mp hb with rfl | hb
        · exact hmax a hatk
        · exact hbound a (htk.subset hatk) b hb)
    exact ⟨ihp.trans hperm, iho⟩

theorem bubble_sort_perm_ordered
    (htot : ∀ a b, cmp a b = true ∨ cmp b a = true)
    (htrans : ∀ a b c, cmp a b = true → cmp b c = true → cmp a c = true)
    (v : List α) :
    List.Perm (bubble_sort cmp v).1 v ∧ ordered cmp (bubble_sort cmp v).1 := by
  rw [bubble_sort]
  by_cases hlen : v.length ≤ 1
  · rw [if_pos hlen]
    exact ⟨List.Perm.refl _, ordered_short hlen⟩
  · rw [if_neg hlen]
    exact bubble_loop_spec htot htrans v.length v le_rfl
      (by simp [ordered]) (by simp)

/-! ## Range and write-back algebra for the ranged sorts -/

theorem seg_eq_drop_take (v : List α) (lo hi : Nat) :
    seg v lo hi = (v.take hi).drop lo := by
  rw [seg, List.drop_take]

theorem seg_length {v : List α} {lo hi : Nat} (h : hi ≤ v.length) (hlh : lo ≤ hi) :
    (seg v lo hi).length = hi - lo := by
  simp only [seg, List.length_take, List.length_drop]
  omega

theorem seg_length_le (v : List α) (lo hi : Nat) :
    (seg v lo hi).length ≤ hi - lo := by
  simp only [seg, List.length_take, List.length_drop]
  omega

theorem seg_self (v : List α) : seg v 0 v.length = v := by
  simp [seg]

theorem seg_append (v : List α) {lo mid hi : Nat} (h1 : lo ≤ mid) (h2 : mid ≤ hi) :
    seg v lo mid ++ seg v mid hi = seg v lo hi := by
  have hd : v.drop mid = (v.drop lo).drop (mid - lo) := by
    rw [List.drop_drop]
    congr 1
    omega
  rw [seg, seg, seg, hd, ← List.take_add]
  congr 1
  omega

theorem seg_take_left {v : List α} {lo hi k : Nat} (hk : k ≤ hi - lo) :
    (seg v lo hi).take k = seg v lo (lo + k) := by
  rw [seg, seg, List.take_take]
  congr 1
  omega

theorem seg_drop_left (v : List α) (lo hi k : Nat) :
    (seg v lo hi).drop k = seg v (lo + k) hi := by
  rw [seg, seg, List.drop_take, List.drop_drop]
  congr 1
  omega

theorem seg_congr_take {a b : List α} {hi : Nat} (h : a.take hi = b.take hi)
    (lo : Nat) : seg a lo hi = seg b lo hi := by
  rw [seg_eq_drop_take, seg_eq_drop_take, h]

theorem seg_congr_drop {a b : List α} {lo : Nat} (h : a.drop lo = b.drop lo)
    (hi : Nat) : seg a lo hi = seg b lo hi := by
  rw [seg, seg, h]

theorem take_eq_of_take_eq {a b : List α} {m n : Nat} (h : n ≤ m)
    (heq : a.take m = b.take m) : a.take n = b.take n := by
  have ha : a.take n = (a.take m).take n := by
    rw [List.take_take, Nat.min_eq_left h]
  have hb : b.take n = (b.take m).take n := by
    rw [List.take_take, Nat.min_eq_left h]
  rw [ha, hb, heq]

theorem drop_eq_of_drop_eq {a b : List α} {m n : Nat} (h : m ≤ n)
    (heq : a.drop m = b.drop m) : a.drop n = b.drop n := by
  have ha : a.drop n = (a.drop m).drop (n - m) := by
    rw [List.drop_drop]
    congr 1
    omega
  have hb : b.drop n = (b.drop m).drop (n - m) := by
    rw [List.drop_drop]
    congr 1
    omega
  rw [ha, hb, heq]

theorem writeAt_length {v u : List α} {lo : Nat} (h : lo + u.length ≤ v.length) :
    (writeAt v lo u).length = v.length := by
  simp only [writeAt, List.length_append, List.length_take, List.length_drop]
  omega

theorem writeAt_take {v u : List α} {lo : Nat} (h : lo ≤ v.length) :
    (writeAt v lo u).take lo = v.take lo := by
  have hA : (v.take lo).length = lo := by
    simp only [List.length_take]
    omega
  rw [writeAt, List.append_assoc, List.take_left' hA]

theorem writeAt_drop {v u : List α} {lo : Nat} (h : lo ≤ v.length) :
    (writeAt v lo u).drop (lo + u.length) = v.drop (lo + u.length) := by
  have hA : (v.take lo ++ u).length = lo + u.length := by
    simp only [List.length_append, List.length_take]
    omega
  rw [writeAt, List.drop_left' hA]

theorem writeAt_seg {v u : List α} {lo : Nat} (h : lo ≤ v.length) :
    seg (writeAt v lo u) lo (lo + u.length) = u := by
  have hA : (v.take lo).length = lo := by
    simp only [List.length_take]
    omega
  rw [seg, writeAt, Nat.add_sub_cancel_left, List.append_assoc,
    List.drop_left' hA]
  exact List.take_left u _

theorem seg_getD {v : List α} {lo hi p : Nat} (h1 : lo ≤ p) (h2 : p < hi)
    (h3 : p < v.length) (d : α) :
    (seg v lo hi).getD (p - lo) d = v.getD p d := by
  rw [seg, getD_take (by omega)]
  have hlt : p - lo < (v.drop lo).length := by
    simp only [List.length_drop]
    omega
  rw [List.getD_eq_getElem _ d hlt, List.getD_eq_getElem _ d h3]
  rw [List.getElem_drop]
  congr 1
  omega

theorem getD_cons_eraseIdx_perm {l : List α} {i : Nat} (h : i < l.length) (d : α) :
    List.Perm (l.getD i d :: l.eraseIdx i) l := by
  rw [List.eraseIdx_eq_take_drop_succ]
  have hdrop : l.drop i = l.getD i d :: l.drop (i + 1) := by
    rw [List.drop_eq_getElem_cons h, List.getD_eq_getElem _ d h]
  refine List.Perm.trans List.perm_middle.symm ?_
  rw [← hdrop, List.take_append_drop]

theorem length_filter_add (l : List α) (p : α → Bool) :
    (l.filter p).length + (l.filter (fun a => !p a)).length = l.length := by
  have h := (List.filter_append_perm p l).length_eq
  simpa using h

/-! ## The merge loop: permutation, order, head -/

theorem mergeLoop_perm : ∀ (A B : List α),
    List.Perm (mergeLoop cmp A B).1 (A ++ B) := by
  intro A
  induction A with
  | nil => intro B; rw [mergeLoop]; simp
  | cons a l1 ihA =>
    intro B
    induction B with
    | nil => rw [mergeLoop] <;> simp
    | cons b l2 ihB =>
      rw [mergeLoop]
      by_cases hc : cmp a b = true
      · rw [if_pos hc]
        exact List.Perm.cons a (ihA (b :: l2))
      · rw [if_neg hc]
        refine List.Perm.trans (List.Perm.cons b ihB) ?_
        exact List.perm_middle.symm

theorem mergeLoop_head : ∀ (A B : List α),
    (mergeLoop cmp A B).1.head? = A.head? ∨ (mergeLoop cmp A B).1.head? = B.head? := by
  intro A B
  match A, B with
  | [], B => right; rw [mergeLoop]
  | a :: l1, [] => left; rw [mergeLoop] <;> simp
  | a :: l1, b :: l2 =>
    rw [mergeLoop]
    by_cases hc : cmp a b = true
    · left; rw [if_pos hc]; rfl
    · right; rw [if_neg hc]; rfl

theorem mergeLoop_chain' (htot : ∀ a b, cmp a b = true ∨ cmp b a = true) :
    ∀ (A B : List α), ordered cmp A → ordered cmp B →
      ordered cmp (mergeLoop cmp A B).1 := by
  intro A
  induction A with
  | nil => intro B _ hB; rw [mergeLoop]; exact hB
  | cons a l1 ihA =>
    intro B
    induction B with
    | nil =>
      intro hA _
      have he : (mergeLoop cmp (a :: l1) []).1 = a :: l1 := by
        rw [mergeLoop] <;> simp
      rw [ordered, he]
      exact hA
    | cons b l2 ihB =>
      intro hA hB
      rw [ordered, List.chain'_cons'] at hA hB
      rw [mergeLoop]
      by_cases hc : cmp a b = true
      · rw [if_pos hc]
        rw [ordered, List.chain'_cons']
        refine ⟨fun z hz => ?_, ihA (b :: l2) hA.2 (List.chain'_cons'.mpr hB)⟩
        rcases @mergeLoop_head _ _ cmp l1 (b :: l2) with hh | hh
        · rw [hh] at hz
          exact hA.1 z hz
        · rw [hh] at hz
          simp only [List.head?_cons, Option.mem_def, Option.some.injEq] at hz
          subst hz
          exact hc
      · rw [if_neg hc]
        have hba : cmp b a = true := by
          rcases htot a b with h | h
          · exact absurd h hc
          · exact h
        rw [ordered, List.chain'_cons']
        refine ⟨fun z hz => ?_, ihB (List.chain'_cons'.mpr hA) hB.2⟩
        rcases @mergeLoop_head _ _ cmp (a :: l1) l2 with hh | hh
        · rw [hh] at hz
          simp only [List.head?_cons, Option.mem_def, Option.some.injEq] at hz
          subst hz
          exact hba
        · rw [hh] at hz
          exact hB.1 z hz

/-- Everything `merge` guarantees about `v[lo..hi)` when its two halves are
ordered: length, frame outside the range, permutation and order inside. -/
theorem merge_spec (htot : ∀ a b, cmp a b = true ∨ cmp b a = true)
    {v : List α} {lo hi : Nat} (hlo : lo ≤ hi) (hhi : hi ≤ v.length)
    (hA : ordered cmp (seg v lo (lo + (hi - lo) / 2)))
    (hB : ordered cmp (seg v (lo + (hi - lo) / 2) hi)) :
    (merge cmp v lo hi).1.length = v.length ∧
    (merge cmp v lo hi).1.take lo = v.take lo ∧
    (merge cmp v lo hi).1.drop hi = v.drop hi ∧
    List.Perm (seg (merge cmp v lo hi).1 lo hi) (seg v lo hi) ∧
    ordered cmp (seg (merge cmp v lo hi).1 lo hi) := by
  have hm1 : lo ≤ lo + (hi - lo) / 2 := by omega
  have hm2 : lo + (hi - lo) / 2 ≤ hi := by omega
  have hlenA : (seg v lo (lo + (hi - lo) / 2)).length = (hi - lo) / 2 := by
    rw [seg_length (by omega) hm1]
    omega
  have hlenB : (seg v (lo + (hi - lo) / 2) hi).length = hi - (lo + (hi - lo) / 2) := by
    rw [seg_length hhi hm2]
  have hulen :
      (mergeLoop cmp (seg v lo (lo + (hi - lo) / 2)) (seg v (lo + (hi - lo) / 2) hi)).1.length
        = hi - lo := by
    have := (@mergeLoop_perm _ _ cmp (seg v lo (lo + (hi - lo) / 2))
      (seg v (lo + (hi - lo) / 2) hi)).length_eq
    rw [this, List.length_append, hlenA, hlenB]
    omega
  have hfit : lo + (mergeLoop cmp (seg v lo (lo + (hi - lo) / 2))
      (seg v (lo + (hi - lo) / 2) hi)).1.length ≤ v.length := by
    rw [hulen]
    omega
  have hfit' : lo + (mergeLoop cmp (seg v lo (lo + (hi - lo) / 2))
      (seg v (lo + (hi - lo) / 2) hi)).1.length = hi := by
    rw [hulen]
    omega
  have hm : (merge cmp v lo hi).1 = writeAt v lo
      (mergeLoop cmp (seg v lo (lo + (hi - lo) / 2)) (seg v (lo + (hi - lo) / 2) hi)).1 := by
    rw [merge]
  rw [hm]
  refine ⟨writeAt_length hfit, writeAt_take (by omega), ?_, ?_, ?_⟩
  · have h := writeAt_drop (v := v) (u := (mergeLoop cmp (seg v lo (lo + (hi - lo) / 2))
      (seg v (lo + (hi - lo) / 2) hi)).1) (show lo ≤ v.length by omega)
    rwa [hfit'] at h
  · have h := writeAt_seg (v := v) (u := (mergeLoop cmp (seg v lo (lo + (hi - lo) / 2))
      (seg v (lo + (hi - lo) / 2) hi)).1) (show lo ≤ v.length by omega)
    rw [hfit'] at h
    rw [h]
    refine List.Perm.trans (mergeLoop_perm _ _) ?_
    rw [seg_append v hm1 hm2]
  · have h := writeAt_seg (v := v) (u := (mergeLoop cmp (seg v lo (lo + (hi - lo) / 2))
      (seg v (lo + (hi - lo) / 2) hi)).1) (show lo ≤ v.length by omega)
    rw [hfit'] at h
    rw [h]
    exact mergeLoop_chain' htot _ _ hA hB

/-! ## Merge sort: the ranged recursion -/

theorem merge_sort_helper_base {v : List α} {lo hi : Nat} (h : hi - lo ≤ 1) :
    merge_sort_helper cmp v lo hi = (v, 0) := by
  rw [merge_sort_helper, if_pos h]

theorem merge_sort_helper_eq {v : List α} {lo hi : Nat} (h : ¬ hi - lo ≤ 1) :
    merge_sort_helper cmp v lo hi =
      ((merge cmp (merge_sort_helper cmp (merge_sort_helper cmp v lo
          (lo + (hi - lo) / 2)).1 (lo + (hi - lo) / 2) hi).1 lo hi).1,
       (merge_sort_helper cmp v lo (lo + (hi - lo) / 2)).2 +
        (merge_sort_helper cmp (merge_sort_helper cmp v lo
          (lo + (hi - lo) / 2)).1 (lo + (hi - lo) / 2) hi).2 +
        (merge cmp (merge_sort_helper cmp (merge_sort_helper cmp v lo
          (lo + (hi - lo) / 2)).1 (lo + (hi - lo) / 2) hi).1 lo hi).2) := by
  rw [merge_sort_helper, if_neg h]

/-- Everything `merge_sort_helper` guarantees about `v[lo..hi)`: length and
outside frame are preserved, the range is permuted into comparator
order. -/
theorem merge_sort_helper_spec
    (htot : ∀ a b, cmp a b = true ∨ cmp b a = true) :
    ∀ (d : Nat) (v : List α) (lo hi : Nat), hi - lo ≤ d → hi ≤ v.length →
      (merge_sort_helper cmp v lo hi).1.length = v.length ∧
      (merge_sort_helper cmp v lo hi).1.take lo = v.take lo ∧
      (merge_sort_helper cmp v lo hi).1.drop hi = v.drop hi ∧
      List.Perm (seg (merge_sort_helper cmp v lo hi).1 lo hi) (seg v lo hi) ∧
      ordered cmp (seg (merge_sort_helper cmp v lo hi).1 lo hi) := by
  intro d
  induction d with
  | zero =>
    intro v lo hi hd hv
    rw [merge_sort_helper_base (by omega)]
    exact ⟨rfl, rfl, rfl, List.Perm.refl _,
      ordered_short (le_trans (seg_length_le v lo hi) (by omega))⟩
  | succ d ih =>
    intro v lo hi hd hv
    by_cases h1 : hi - lo ≤ 1
    · rw [merge_sort_helper_base h1]
      exact ⟨rfl, rfl, rfl, List.Perm.refl _,
        ordered_short (le_trans (seg_length_le v lo hi) h1)⟩
    · have hm1 : lo < lo + (hi - lo) / 2 := by omega
      have hm2 : lo + (hi - lo) / 2 < hi := by omega
      obtain ⟨ih1len, ih1take, ih1drop, ih1perm, ih1ord⟩ :=
        ih v lo (lo + (hi - lo) / 2) (by omega) (by omega)
      obtain ⟨ih2len, ih2take, ih2drop, ih2perm, ih2ord⟩ :=
        ih (merge_sort_helper cmp v lo (lo + (hi - lo) / 2)).1
          (lo + (hi - lo) / 2) hi (by omega) (by omega)
      have hr2len : (merge_sort_helper cmp
          (merge_sort_helper cmp v lo (lo + (hi - lo) / 2)).1
          (lo + (hi - lo) / 2) hi).1.length = v.length := by
        rw [ih2len, ih1len]
      have hr2take : (merge_sort_helper cmp
          (merge_sort_helper cmp v lo (lo + (hi - lo) / 2)).1
          (lo + (hi - lo) / 2) hi).1.take lo = v.take lo := by
        rw [take_eq_of_take_eq (le_of_lt hm1) ih2take, ih1take]
      have hr2drop : (merge_sort_helper cmp
          (merge_sort_helper cmp v lo (lo + (hi - lo) / 2)).1
          (lo + (hi - lo) / 2) hi).1.drop hi = v.drop hi := by
        rw [ih2drop, drop_eq_of_drop_eq (le_of_lt hm2) ih1drop]
      have hsegA : seg (merge_sort_helper cmp
          (merge_sort_helper cmp v lo (lo + (hi - lo) / 2)).1
          (lo + (hi - lo) / 2) hi).1 lo (lo + (hi - lo) / 2) =
          seg (merge_sort_helper cmp v lo (lo + (hi - lo) / 2)).1
            lo (lo + (hi - lo) / 2) :=
        seg_congr_take ih2take lo
      have hsegB : seg (merge_sort_helper cmp v lo (lo + (hi - lo) / 2)).1
          (lo + (hi - lo) / 2) hi = seg v (lo + (hi - lo) / 2) hi :=
        seg_congr_drop ih1drop hi
      obtain ⟨hmlen, hmtake, hmdrop, hmperm, hmord⟩ :=
        merge_spec htot (by omega) (by omega : hi ≤ (merge_sort_helper cmp
            (merge_sort_helper cmp v lo (lo + (hi - lo) / 2)).1
            (lo + (hi - lo) / 2) hi).1.length)
          (by rw [hsegA]; exact ih1ord) ih2ord
      rw [merge_sort_helper_eq h1]
      refine ⟨by rw [hmlen, hr2len], by rw [hmtake, hr2take],
        by rw [hmdrop, hr2drop], ?_, hmord⟩
      refine hmperm.trans ?_
      rw [← seg_append (merge_sort_helper cmp
            (merge_sort_helper cmp v lo (lo + (hi - lo) / 2)).1
            (lo + (hi - lo) / 2) hi).1 (le_of_lt hm1) (le_of_lt hm2),
          ← seg_append v (le_of_lt hm1) (le_of_lt hm2)]
      refine List.Perm.append ?_ ?_
      · rw [hsegA]
        exact ih1perm
      · exact ih2perm.trans (by rw [hsegB])

theorem merge_sort_perm_ordered
    (htot : ∀ a b, cmp a b = true ∨ cmp b a = true) (v : List α) :
    List.Perm (merge_sort cmp v).1 v ∧ ordered cmp (merge_sort cmp v).1 := by
  obtain ⟨hlen, -, -, hperm, hord⟩ :=
    merge_sort_helper_spec htot v.length v 0 v.length le_rfl le_rfl
  rw [merge_sort] at *
  have hseg := seg_self (merge_sort_helper cmp v 0 v.length).1
  rw [hlen] at hseg
  rw [hseg] at hperm hord
  rw [seg_self] at hperm
  exact ⟨hperm, hord⟩

/-! ## Parallel merge sort equals merge sort at value and count level -/

theorem pmerge_sort_helper_base {v : List α} {lo hi : Nat} (h : hi - lo ≤ 1) :
    pmerge_sort_helper cmp v lo hi = (v, 0) := by
  rw [pmerge_sort_helper, if_pos h]

theorem pmerge_sort_helper_eq {v : List α} {lo hi : Nat} (h : ¬ hi - lo ≤ 1) :
    pmerge_sort_helper cmp v lo hi =
      ((merge cmp (pmerge_sort_helper cmp (pmerge_sort_helper cmp v lo
          (lo + (hi - lo) / 2)).1 (lo + (hi - lo) / 2) hi).1 lo hi).1,
       (pmerge_sort_helper cmp v lo (lo + (hi - lo) / 2)).2 +
        (pmerge_sort_helper cmp (pmerge_sort_helper cmp v lo
          (lo + (hi - lo) / 2)).1 (lo + (hi - lo) / 2) hi).2 +
        (merge cmp (pmerge_sort_helper cmp (pmerge_sort_helper cmp v lo
          (lo + (hi - lo) / 2)).1 (lo + (hi - lo) / 2) hi).1 lo hi).2) := by
  rw [pmerge_sort_helper, if_neg h]

theorem pmerge_sort_helper_eq_merge_sort_helper :
    ∀ (d : Nat) (v : List α) (lo hi : Nat), hi - lo ≤ d →
      pmerge_sort_helper cmp v lo hi = merge_sort_helper cmp v lo hi := by
  intro d
  induction d with
  | zero =>
    intro v lo hi hd
    rw [pmerge_sort_helper_base (by omega), merge_sort_helper_base (by omega)]
  | succ d ih =>
    intro v lo hi hd
    by_cases h1 : hi - lo ≤ 1
    · rw [pmerge_sort_helper_base h1, merge_sort_helper_base h1]
    · rw [pmerge_sort_helper_eq h1, merge_sort_helper_eq h1,
        ih v lo (lo + (hi - lo) / 2) (by omega),
        ih (merge_sort_helper cmp v lo (lo + (hi - lo) / 2)).1
          (lo + (hi - lo) / 2) hi (by omega)]

theorem pmerge_sort_eq_merge_sort (v : List α) :
    pmerge_sort cmp v = merge_sort cmp v := by
  rw [pmerge_sort, merge_sort,
    pmerge_sort_helper_eq_merge_sort_helper v.length v 0 v.length le_rfl]

/-! ## Partition: specification -/

theorem partition_unfold (v : List α) (lo hi p : Nat) :
    partition cmp v lo hi p =
      (writeAt v lo ((partitionBuffers cmp v lo hi p).1 ++
        v.getD p default :: (partitionBuffers cmp v lo hi p).2),
       (partitionBuffers cmp v lo hi p).1.length,
       ((seg v lo hi).eraseIdx (p - lo)).length) := by
  rw [partition]

theorem partitionBuffers_mem_left {v : List α} {lo hi p : Nat} {x : α}
    (hx : x ∈ (partitionBuffers cmp v lo hi p).1) :
    cmp x (v.getD p default) = true := by
  simp only [partitionBuffers] at hx
  exact (List.mem_filter.mp hx).2

theorem partitionBuffers_mem_right {v : List α} {lo hi p : Nat} {x : α}
    (hx : x ∈ (partitionBuffers cmp v lo hi p).2) :
    cmp x (v.getD p default) = false := by
  simp only [partitionBuffers] at hx
  have h := (List.mem_filter.mp hx).2
  simpa using h

theorem partitionBuffers_length {v : List α} {lo hi p : Nat}
    (h1 : lo ≤ p) (h2 : p < hi) (h3 : hi ≤ v.length) :
    (partitionBuffers cmp v lo hi p).1.length +
      (partitionBuffers cmp v lo hi p).2.length = hi - lo - 1 := by
  simp only [partitionBuffers]
  rw [length_filter_add, List.length_eraseIdx, seg_length h3 (by omega),
    if_pos (by omega)]

theorem partitionBuffers_perm {v : List α} {lo hi p : Nat}
    (h1 : lo ≤ p) (h2 : p < hi) (h3 : hi ≤ v.length) :
    List.Perm ((partitionBuffers cmp v lo hi p).1 ++
      v.getD p default :: (partitionBuffers cmp v lo hi p).2) (seg v lo hi) := by
  have hp : p - lo < (seg v lo hi).length := by
    rw [seg_length h3 (by omega)]
    omega
  have hmid : List.Perm
      ((partitionBuffers cmp v lo hi p).1 ++ v.getD p default ::
        (partitionBuffers cmp v lo hi p).2)
      (v.getD p default ::
        ((partitionBuffers cmp v lo hi p).1 ++ (partitionBuffers cmp v lo hi p).2)) :=
    List.perm_middle
  refine hmid.trans ?_
  have hfil : List.Perm
      ((partitionBuffers cmp v lo hi p).1 ++ (partitionBuffers cmp v lo hi p).2)
      ((seg v lo hi).eraseIdx (p - lo)) := by
    simp only [partitionBuffers]
    exact List.filter_append_perm _ _
  refine List.Perm.trans (hfil.cons _) ?_
  have hget : (seg v lo hi).getD (p - lo) default = v.getD p default :=
    seg_getD h1 h2 (by omega) default
  rw [← hget]
  exact getD_cons_eraseIdx_perm hp default

theorem partition_spec {v : List α} {lo hi p : Nat}
    (h1 : lo ≤ p) (h2 : p < hi) (h3 : hi ≤ v.length) :
    (partition cmp v lo hi p).1.length = v.length ∧
    (partition cmp v lo hi p).1.take lo = v.take lo ∧
    (partition cmp v lo hi p).1.drop hi = v.drop hi ∧
    seg (partition cmp v lo hi p).1 lo hi =
      (partitionBuffers cmp v lo hi p).1 ++
        v.getD p default :: (partitionBuffers cmp v lo hi p).2 ∧
    List.Perm (seg (partition cmp v lo hi p).1 lo hi) (seg v lo hi) ∧
    (partition cmp v lo hi p).2.1 = (partitionBuffers cmp v lo hi p).1.length := by
  have hblen := @partitionBuffers_length α _ cmp v lo hi p h1 h2 h3
  have hUlen : ((partitionBuffers cmp v lo hi p).1 ++
      v.getD p default :: (partitionBuffers cmp v lo hi p).2).length = hi - lo := by
    simp only [List.length_append, List.length_cons]
    omega
  have hU : lo + ((partitionBuffers cmp v lo hi p).1 ++
      v.getD p default :: (partitionBuffers cmp v lo hi p).2).length = hi := by
    rw [hUlen]
    omega
  rw [partition_unfold]
  refine ⟨writeAt_length (by omega), writeAt_take (by omega), ?_, ?_, ?_, rfl⟩
  · have h := writeAt_drop (v := v) (u := (partitionBuffers cmp v lo hi p).1 ++
      v.getD p default :: (partitionBuffers cmp v lo hi p).2)
      (show lo ≤ v.length by omega)
    rwa [hU] at h
  · have h := writeAt_seg (v := v) (u := (partitionBuffers cmp v lo hi p).1 ++
      v.getD p default :: (partitionBuffers cmp v lo hi p).2)
      (show lo ≤ v.length by omega)
    rwa [hU] at h
  · have h := writeAt_seg (v := v) (u := (partitionBuffers cmp v lo hi p).1 ++
      v.getD p default :: (partitionBuffers cmp v lo hi p).2)
      (show lo ≤ v.length by omega)
    rw [hU] at h
    rw [h]
    exact partitionBuffers_perm h1 h2 h3

/-! ## The generalized quicksort: correctness -/

theorem quick_sort_gen_base {pick : Nat → Nat → Nat → Nat} {v : List α}
    {lo hi r : Nat} (h : hi - lo ≤ 1) :
    quick_sort_gen cmp pick v lo hi r = (v, 0, r) := by
  rw [quick_sort_gen, dif_pos h]

theorem quick_sort_gen_eq {pick : Nat → Nat → Nat → Nat} {v : List α}
    {lo hi r : Nat} (h : ¬ hi - lo ≤ 1)
    {pr : List α × Nat × Nat}
    (hpr : pr = partition cmp v lo hi (min (pick lo hi r) (hi - 1)))
    {r1 : List α × Nat × Nat}
    (hr1 : r1 = quick_sort_gen cmp pick pr.1 lo (lo + pr.2.1) (r + 1))
    {r2 : List α × Nat × Nat}
    (hr2 : r2 = quick_sort_gen cmp pick r1.1 (lo + pr.2.1 + 1) hi r1.2.2) :
    quick_sort_gen cmp pick v lo hi r = (r2.1, pr.2.2 + r1.2.1 + r2.2.1, r2.2.2) := by
  subst hpr
  subst hr1
  subst hr2
  rw [quick_sort_gen, dif_neg h]

/-- Everything the generalized quicksort guarantees about `v[lo..hi)` when
every pivot policy value is at least `lo`: length and outside frame are
preserved, the range is permuted into comparator order. -/
theorem quick_sort_gen_spec
    (htot : ∀ a b, cmp a b = true ∨ cmp b a = true)
    (pick : Nat → Nat → Nat → Nat)
    (hpick : ∀ lo hi r, 2 ≤ hi - lo → lo ≤ pick lo hi r) :
    ∀ (d : Nat) (v : List α) (lo hi r : Nat), hi - lo ≤ d → hi ≤ v.length →
      (quick_sort_gen cmp pick v lo hi r).1.length = v.length ∧
      (quick_sort_gen cmp pick v lo hi r).1.take lo = v.take lo ∧
      (quick_sort_gen cmp pick v lo hi r).1.drop hi = v.drop hi ∧
      List.Perm (seg (quick_sort_gen cmp pick v lo hi r).1 lo hi) (seg v lo hi) ∧
      ordered cmp (seg (quick_sort_gen cmp pick v lo hi r).1 lo hi) := by
  intro d
  induction d with
  | zero =>
    intro v lo hi r hd hv
    rw [quick_sort_gen_base (by omega)]
    exact ⟨rfl, rfl, rfl, List.Perm.refl _,
      ordered_short (le_trans (seg_length_le v lo hi) (by omega))⟩
  | succ d ih =>
    intro v lo hi r hd hv
    by_cases hbase : hi - lo ≤ 1
    · rw [quick_sort_gen_base hbase]
      exact ⟨rfl, rfl, rfl, List.Perm.refl _,
        ordered_short (le_trans (seg_length_le v lo hi) hbase)⟩
    · have hpv1 : lo ≤ min (pick lo hi r) (hi - 1) :=
        le_min (hpick lo hi r (by omega)) (by omega)
      have hpv2 : min (pick lo hi r) (hi - 1) < hi :=
        lt_of_le_of_lt (Nat.min_le_right _ _) (by omega)
      obtain ⟨hplen, hptake, hpdrop, hpseg, hpperm, hpret⟩ :=
        @partition_spec α _ cmp v lo hi (min (pick lo hi r) (hi - 1))
          hpv1 hpv2 hv
      have hblen := @partitionBuffers_length α _ cmp v lo hi
        (min (pick lo hi r) (hi - 1)) hpv1 hpv2 hv
      set pv := min (pick lo hi r) (hi - 1) with hpvdef
      set vp := v.getD pv default with hvpdef
      set u1 := (partitionBuffers cmp v lo hi pv).1 with hu1def
      set u2 := (partitionBuffers cmp v lo hi pv).2 with hu2def
      set w := (partition cmp v lo hi pv).1 with hwdef
      set m := (partition cmp v lo hi pv).2.1 with hmdef
      have hmlen : m = u1.length := hpret
      have hmle : m ≤ hi - lo - 1 := by omega
      have hsegA_w : seg w lo (lo + m) = u1 := by
        have h := @seg_take_left α _ w lo hi m (by omega)
        rw [hpseg, List.take_left' hmlen.symm] at h
        exact h.symm
      have hsegP_w : seg w (lo + m) hi = vp :: u2 := by
        have h := seg_drop_left w lo hi m
        rw [hpseg, List.drop_left' hmlen.symm] at h
        exact h.symm
      obtain ⟨ih1len, ih1take, ih1drop, ih1perm, ih1ord⟩ :=
        ih w lo (lo + m) (r + 1) (by omega) (by omega)
      set w1 := (quick_sort_gen cmp pick w lo (lo + m) (r + 1)).1 with hw1def
      have hw1len : w1.length = v.length := by rw [ih1len, hplen]
      have hsegP_w1 : seg w1 (lo + m) hi = vp :: u2 := by
        rw [seg_congr_drop ih1drop hi, hsegP_w]
      obtain ⟨ih2len, ih2take, ih2drop, ih2perm, ih2ord⟩ :=
        ih w1 (lo + m + 1) hi
          (quick_sort_gen cmp pick w lo (lo + m) (r + 1)).2.2
          (by omega) (by omega)
      set w2 := (quick_sort_gen cmp pick w1 (lo + m + 1) hi
        (quick_sort_gen cmp pick w lo (lo + m) (r + 1)).2.2).1 with hw2def
      have hw2len : w2.length = v.length := by rw [ih2len, hw1len]
      have hsegB_w1 : seg w1 (lo + m + 1) hi = u2 := by
        have h := seg_drop_left w1 (lo + m) hi 1
        rw [hsegP_w1] at h
        simpa using h.symm
      have hsegB_w2 : List.Perm (seg w2 (lo + m + 1) hi) u2 := by
        rw [← hsegB_w1]
        exact ih2perm
      have hsegMid_w2 : seg w2 (lo + m) (lo + m + 1) = [vp] := by
        rw [seg_congr_take ih2take (lo + m)]
        have h := @seg_take_left α _ w1 (lo + m) hi 1
          (show 1 ≤ hi - (lo + m) by omega)
        rw [hsegP_w1] at h
        rw [← h]
        rfl
      have hsegA_w2 : seg w2 lo (lo + m) = seg w1 lo (lo + m) :=
        seg_congr_take (take_eq_of_take_eq (by omega) ih2take) lo
      have hsegA_w2perm : List.Perm (seg w2 lo (lo + m)) u1 := by
        rw [hsegA_w2, ← hsegA_w]
        exact ih1perm
      have hgoal1 : w2.take lo = v.take lo := by
        rw [take_eq_of_take_eq (by omega) ih2take,
          take_eq_of_take_eq (by omega) ih1take, hptake]
      have hgoal2 : w2.drop hi = v.drop hi := by
        rw [ih2drop, drop_eq_of_drop_eq (by omega) ih1drop, hpdrop]
      have hsplit : seg w2 lo hi =
          seg w2 lo (lo + m) ++ vp :: seg w2 (lo + m + 1) hi := by
        rw [← seg_append w2 (by omega : lo ≤ lo + m) (by omega : lo + m ≤ hi),
          ← seg_append w2 (by omega : lo + m ≤ lo + m + 1) (by omega : lo + m + 1 ≤ hi),
          hsegMid_w2]
        rfl
      have hperm : List.Perm (seg w2 lo hi) (seg v lo hi) := by
        rw [hsplit]
        refine List.Perm.trans
          (List.Perm.append hsegA_w2perm (hsegB_w2.cons vp)) ?_
        rw [← hpseg]
        exact hpperm
      have hord : ordered cmp (seg w2 lo hi) := by
        rw [hsplit, ordered, List.chain'_append]
        refine ⟨by rw [hsegA_w2]; exact ih1ord, ?_, ?_⟩
        · rw [List.chain'_cons']
          refine ⟨fun y hy => ?_, ih2ord⟩
          have hyu2 : y ∈ u2 :=
            hsegB_w2.subset (List.mem_of_mem_head? hy)
          rw [hu2def] at hyu2
          have hyf := partitionBuffers_mem_right hyu2
          rcases htot vp y with h | h
          · exact h
          · rw [hvpdef] at h
            rw [h] at hyf
            cases hyf
        · intro x hx y hy
          simp only [List.head?_cons, Option.mem_def, Option.some.injEq] at hy
          subst hy
          have hxu1 : x ∈ u1 :=
            hsegA_w2perm.subset (List.mem_of_mem_getLast? hx)
          rw [hu1def] at hxu1
          exact partitionBuffers_mem_left hxu1
      rw [quick_sort_gen_eq hbase rfl rfl rfl]
      exact ⟨hw2len, hgoal1, hgoal2, hperm, hord⟩

/-! ## The three quicksorts are instances of the generalized recursion -/

theorem quick_sort_helper_base {v : List α} {lo hi : Nat} (h : hi - lo ≤ 1) :
    quick_sort_helper cmp v lo hi = (v, 0) := by
  rw [quick_sort_helper, dif_pos h]

theorem quick_sort_helper_eq {v : List α} {lo hi : Nat} (h : ¬ hi - lo ≤ 1)
    {pr : List α × Nat × Nat}
    (hpr : pr = partition cmp v lo hi (lo + (hi - lo) / 2))
    {r1 : List α × Nat}
    (hr1 : r1 = quick_sort_helper cmp pr.1 lo (lo + pr.2.1))
    {r2 : List α × Nat}
    (hr2 : r2 = quick_sort_helper cmp r1.1 (lo + pr.2.1 + 1) hi) :
    quick_sort_helper cmp v lo hi = (r2.1, pr.2.2 + r1.2 + r2.2) := by
  subst hpr
  subst hr1
  subst hr2
  rw [quick_sort_helper, dif_neg h]

theorem pquick_sort_helper_base {v : List α} {lo hi : Nat} (h : hi - lo ≤ 1) :
    pquick_sort_helper cmp v lo hi = (v, 0) := by
  rw [pquick_sort_helper, dif_pos h]

theorem pquick_sort_helper_eq {v : List α} {lo hi : Nat} (h : ¬ hi - lo ≤ 1)
    {pr : List α × Nat × Nat}
    (hpr : pr = partition cmp v lo hi (lo + (hi - lo) / 2))
    {r1 : List α × Nat}
    (hr1 : r1 = pquick_sort_helper cmp pr.1 lo (lo + pr.2.1))
    {r2 : List α × Nat}
    (hr2 : r2 = pquick_sort_helper cmp r1.1 (lo + pr.2.1 + 1) hi) :
    pquick_sort_helper cmp v lo hi = (r2.1, pr.2.2 + r1.2 + r2.2) := by
  subst hpr
  subst hr1
  subst hr2
  rw [pquick_sort_helper, dif_neg h]

theorem rpquick_sort_helper_base {rng : Nat → Nat} {v : List α} {lo hi r : Nat}
    (h : hi - lo ≤ 1) :
    rpquick_sort_helper cmp rng v lo hi r = (v, 0, r) := by
  rw [rpquick_sort_helper, dif_pos h]

theorem rpquick_sort_helper_eq {rng : Nat → Nat} {v : List α} {lo hi r : Nat}
    (h : ¬ hi - lo ≤ 1)
    {pr : List α × Nat × Nat}
    (hpr : pr = partition cmp v lo hi (rng r % (hi - lo) + lo))
    {r1 : List α × Nat × Nat}
    (hr1 : r1 = rpquick_sort_helper cmp rng pr.1 lo (lo + pr.2.1) (r + 1))
    {r2 : List α × Nat × Nat}
    (hr2 : r2 = rpquick_sort_helper cmp rng r1.1 (lo + pr.2.1 + 1) hi r1.2.2) :
    rpquick_sort_helper cmp rng v lo hi r =
      (r2.1, pr.2.2 + r1.2.1 + r2.2.1, r2.2.2) := by
  subst hpr
  subst hr1
  subst hr2
  rw [rpquick_sort_helper, dif_neg h]

theorem quick_sort_helper_eq_gen :
    ∀ (d : Nat) (v : List α) (lo hi r : Nat), hi - lo ≤ d →
      (quick_sort_gen cmp (fun lo hi _ => lo + (hi - lo) / 2) v lo hi r).1 =
        (quick_sort_helper cmp v lo hi).1 ∧
      (quick_sort_gen cmp (fun lo hi _ => lo + (hi - lo) / 2) v lo hi r).2.1 =
        (quick_sort_helper cmp v lo hi).2 := by
  intro d
  induction d with
  | zero =>
    intro v lo hi r hd
    rw [quick_sort_gen_base (by omega), quick_sort_helper_base (by omega)]
    exact ⟨rfl, rfl⟩
  | succ d ih =>
    intro v lo hi r hd
    by_cases hb : hi - lo ≤ 1
    · rw [quick_sort_gen_base hb, quick_sort_helper_base hb]
      exact ⟨rfl, rfl⟩
    · have hmin : min ((fun (lo hi : Nat) (_ : Nat) => lo + (hi - lo) / 2) lo hi r)
          (hi - 1) = lo + (hi - lo) / 2 := by
        simp only []
        exact Nat.min_eq_left (by omega)
      have hplt : (partition cmp v lo hi (lo + (hi - lo) / 2)).2.1 < hi - lo :=
        partition_ret_lt cmp v lo hi _ (by omega)
      rw [quick_sort_gen_eq hb rfl rfl rfl, quick_sort_helper_eq hb rfl rfl rfl]
      rw [hmin]
      obtain ⟨e1, e2⟩ := ih (partition cmp v lo hi (lo + (hi - lo) / 2)).1 lo
        (lo + (partition cmp v lo hi (lo + (hi - lo) / 2)).2.1) (r + 1)
        (by omega)
      rw [e1, e2]
      obtain ⟨f1, f2⟩ := ih
        (quick_sort_helper cmp (partition cmp v lo hi (lo + (hi - lo) / 2)).1 lo
          (lo + (partition cmp v lo hi (lo + (hi - lo) / 2)).2.1)).1
        (lo + (partition cmp v lo hi (lo + (hi - lo) / 2)).2.1 + 1) hi
        (quick_sort_gen cmp (fun lo hi _ => lo + (hi - lo) / 2)
          (partition cmp v lo hi (lo + (hi - lo) / 2)).1 lo
          (lo + (partition cmp v lo hi (lo + (hi - lo) / 2)).2.1) (r + 1)).2.2
        (by omega)
      rw [f1, f2]
      exact ⟨rfl, rfl⟩

theorem pquick_sort_helper_eq_quick :
    ∀ (d : Nat) (v : List α) (lo hi : Nat), hi - lo ≤ d →
      pquick_sort_helper cmp v lo hi = quick_sort_helper cmp v lo hi := by
  intro d
  induction d with
  | zero =>
    intro v lo hi hd
    rw [pquick_sort_helper_base (by omega), quick_sort_helper_base (by omega)]
  | succ d ih =>
    intro v lo hi hd
    by_cases hb : hi - lo ≤ 1
    · rw [pquick_sort_helper_base hb, quick_sort_helper_base hb]
    · have hplt : (partition cmp v lo hi (lo + (hi - lo) / 2)).2.1 < hi - lo :=
        partition_ret_lt cmp v lo hi _ (by omega)
      rw [pquick_sort_helper_eq hb rfl rfl rfl]
      rw [ih (partition cmp v lo hi (lo + (hi - lo) / 2)).1 lo
        (lo + (partition cmp v lo hi (lo + (hi - lo) / 2)).2.1) (by omega)]
      rw [ih (quick_sort_helper cmp (partition cmp v lo hi (lo + (hi - lo) / 2)).1
          lo (lo + (partition cmp v lo hi (lo + (hi - lo) / 2)).2.1)).1
        (lo + (partition cmp v lo hi (lo + (hi - lo) / 2)).2.1 + 1) hi (by omega)]
      rw [quick_sort_helper_eq hb rfl rfl rfl]

theorem rpquick_sort_helper_eq_gen (rng : Nat → Nat) :
    ∀ (d : Nat) (v : List α) (lo hi r : Nat), hi - lo ≤ d →
      quick_sort_gen cmp (fun lo hi r => rng r % (hi - lo) + lo) v lo hi r =
        rpquick_sort_helper cmp rng v lo hi r := by
  intro d
  induction d with
  | zero =>
    intro v lo hi r hd
    rw [quick_sort_gen_base (by omega), rpquick_sort_helper_base (by omega)]
  | succ d ih =>
    intro v lo hi r hd
    by_cases hb : hi - lo ≤ 1
    · rw [quick_sort_gen_base hb, rpquick_sort_helper_base hb]
    · have hmod : rng r % (hi - lo) < hi - lo := Nat.mod_lt _ (by omega)
      have hmin : min ((fun (lo hi r : Nat) => rng r % (hi - lo) + lo) lo hi r)
          (hi - 1) = rng r % (hi - lo) + lo := by
        simp only []
        exact Nat.min_eq_left (by omega)
      have hplt : (partition cmp v lo hi (rng r % (hi - lo) + lo)).2.1 < hi - lo :=
        partition_ret_lt cmp v lo hi _ (by omega)
      rw [quick_sort_gen_eq hb rfl rfl rfl]
      rw [hmin]
      rw [ih (partition cmp v lo hi (rng r % (hi - lo) + lo)).1 lo
        (lo + (partition cmp v lo hi (rng r % (hi - lo) + lo)).2.1) (r + 1)
        (by omega)]
      rw [ih (rpquick_sort_helper cmp rng
          (partition cmp v lo hi (rng r % (hi - lo) + lo)).1 lo
          (lo + (partition cmp v lo hi (rng r % (hi - lo) + lo)).2.1) (r + 1)).1
        (lo + (partition cmp v lo hi (rng r % (hi - lo) + lo)).2.1 + 1) hi
        (rpquick_sort_helper cmp rng
          (partition cmp v lo hi (rng r % (hi - lo) + lo)).1 lo
          (lo + (partition cmp v lo hi (rng r % (hi - lo) + lo)).2.1) (r + 1)).2.2
        (by omega)]
      rw [rpquick_sort_helper_eq hb rfl rfl rfl]

/-! ## Top-level sort correctness -/

theorem perm_ordered_of_seg {w v : List α} (hlen : w.length = v.length)
    (hperm : List.Perm (seg w 0 v.length) (seg v 0 v.length))
    (hord : ordered cmp (seg w 0 v.length)) :
    List.Perm w v ∧ ordered cmp w := by
  have hsegw := seg_self w
  rw [hlen] at hsegw
  rw [hsegw] at hperm hord
  rw [seg_self] at hperm
  exact ⟨hperm, hord⟩

theorem quick_sort_perm_ordered
    (htot : ∀ a b, cmp a b = true ∨ cmp b a = true) (v : List α) :
    List.Perm (quick_sort cmp v).1 v ∧ ordered cmp (quick_sort cmp v).1 := by
  obtain ⟨hlen, -, -, hperm, hord⟩ :=
    quick_sort_gen_spec htot (fun lo hi _ => lo + (hi - lo) / 2)
      (fun lo hi r _ => by show lo ≤ lo + (hi - lo) / 2; omega)
      v.length v 0 v.length 0 le_rfl le_rfl
  obtain ⟨e1, -⟩ := quick_sort_helper_eq_gen v.length v 0 v.length 0 le_rfl
  rw [e1] at hlen hperm hord
  rw [quick_sort]
  exact perm_ordered_of_seg hlen hperm hord

theorem pquick_sort_perm_ordered
    (htot : ∀ a b, cmp a b = true ∨ cmp b a = true) (v : List α) :
    List.Perm (pquick_sort cmp v).1 v ∧ ordered cmp (pquick_sort cmp v).1 := by
  have h := quick_sort_perm_ordered htot v
  rw [quick_sort] at h
  rw [pquick_sort, pquick_sort_helper_eq_quick v.length v 0 v.length le_rfl]
  exact h

theorem rpquick_sort_perm_ordered
    (htot : ∀ a b, cmp a b = true ∨ cmp b a = true) (rng : Nat → Nat)
    (v : List α) (r : Nat) :
    List.Perm (rpquick_sort cmp rng v r).1 v ∧
      ordered cmp (rpquick_sort cmp rng v r).1 := by
  obtain ⟨hlen, -, -, hperm, hord⟩ :=
    quick_sort_gen_spec htot (fun lo hi r => rng r % (hi - lo) + lo)
      (fun lo hi r _ => by show lo ≤ rng r % (hi - lo) + lo; omega)
      v.length v 0 v.length r le_rfl le_rfl
  have e := @rpquick_sort_helper_eq_gen α _ cmp rng v.length v 0 v.length r le_rfl
  rw [e] at hlen hperm hord
  rw [rpquick_sort]
  exact perm_ordered_of_seg hlen hperm hord

theorem std_sort_perm_ordered
    (htot : ∀ a b, cmp a b = true ∨ cmp b a = true) (v : List α) :
    List.Perm (std_sort cmp v).1 v ∧ ordered cmp (std_sort cmp v).1 := by
  rw [std_sort]
  exact merge_sort_perm_ordered htot v

/-! ## Termination of the randomized recursion, stated through fuel -/

theorem rpquick_sort_fuel_step {rng : Nat → Nat} {f : Nat} {v : List α}
    {lo hi r : Nat} (h : ¬ hi - lo ≤ 1) :
    rpquick_sort_fuel cmp rng (f + 1) v lo hi r =
      (rpquick_sort_fuel cmp rng f
        (partition cmp v lo hi (rng r % (hi - lo) + lo)).1 lo
        (lo + (partition cmp v lo hi (rng r % (hi - lo) + lo)).2.1) (r + 1)).bind
        (fun s1 =>
          (rpquick_sort_fuel cmp rng f s1.1
            (lo + (partition cmp v lo hi (rng r % (hi - lo) + lo)).2.1 + 1) hi
            s1.2.2).bind
            (fun s2 => some (s2.1,
              (partition cmp v lo hi (rng r % (hi - lo) + lo)).2.2 + s1.2.1 + s2.2.1,
              s2.2.2))) := by
  rw [rpquick_sort_fuel, if_neg h]

theorem rpquick_sort_fuel_eq_helper (rng : Nat → Nat) :
    ∀ (fuel : Nat) (v : List α) (lo hi r : Nat), hi - lo ≤ fuel → 0 < fuel →
      rpquick_sort_fuel cmp rng fuel v lo hi r =
        some (rpquick_sort_helper cmp rng v lo hi r) := by
  intro fuel
  induction fuel with
  | zero => intro v lo hi r h1 h2; omega
  | succ f ih =>
    intro v lo hi r h1 h2
    by_cases hb : hi - lo ≤ 1
    · rw [rpquick_sort_fuel, if_pos hb, rpquick_sort_helper_base hb]
    · rw [rpquick_sort_fuel_step hb]
      have hplt : (partition cmp v lo hi (rng r % (hi - lo) + lo)).2.1 < hi - lo :=
        partition_ret_lt cmp v lo hi _
          (by have := Nat.mod_lt (rng r) (show 0 < hi - lo by omega); omega)
      rw [ih (partition cmp v lo hi (rng r % (hi - lo) + lo)).1 lo
        (lo + (partition cmp v lo hi (rng r % (hi - lo) + lo)).2.1) (r + 1)
        (by omega) (by omega)]
      simp only [Option.some_bind]
      rw [ih (rpquick_sort_helper cmp rng
          (partition cmp v lo hi (rng r % (hi - lo) + lo)).1 lo
          (lo + (partition cmp v lo hi (rng r % (hi - lo) + lo)).2.1) (r + 1)).1
        (lo + (partition cmp v lo hi (rng r % (hi - lo) + lo)).2.1 + 1) hi
        (rpquick_sort_helper cmp rng
          (partition cmp v lo hi (rng r % (hi - lo) + lo)).1 lo
          (lo + (partition cmp v lo hi (rng r % (hi - lo) + lo)).2.1) (r + 1)).2.2
        (by omega) (by omega)]
      rw [rpquick_sort_helper_eq hb rfl rfl rfl]
      rfl

/-! ## Stability of the merge sort -/

theorem ordered_cons_all
    (htrans : ∀ a b c, cmp a b = true → cmp b c = true → cmp a c = true) :
    ∀ (l : List α) (a : α), ordered cmp (a :: l) → ∀ x ∈ l, cmp a x = true := by
  intro l
  induction l with
  | nil => intro a _ x hx; simp at hx
  | cons y ys ih =>
    intro a h x hx
    rw [ordered, List.chain'_cons] at h
    rcases List.mem_cons.mp hx with rfl | hx
    · exact h.1
    · exact htrans _ _ _ h.1 (ih y h.2 x hx)

theorem fst_cmp_total (a b : Int × Int) :
    fst_cmp a b = true ∨ fst_cmp b a = true := by
  simp only [fst_cmp, decide_eq_true_eq]
  omega

theorem fst_cmp_trans (a b c : Int × Int) :
    fst_cmp a b = true → fst_cmp b c = true → fst_cmp a c = true := by
  simp only [fst_cmp, decide_eq_true_eq]
  omega

theorem sort_cmp_total (a b : Int) : sort_cmp a b = true ∨ sort_cmp b a = true := by
  simp only [sort_cmp, decide_eq_true_eq]
  omega

theorem sort_cmp_trans (a b c : Int) :
    sort_cmp a b = true → sort_cmp b c = true → sort_cmp a c = true := by
  simp only [sort_cmp, decide_eq_true_eq]
  omega

/-- The merge loop is stable: since a tie (`cmp a b = true`) prefers the
left run, the elements of any fixed key class come out as those of the
left run followed by those of the right run, in their original orders. -/
theorem mergeLoop_filter (k : Int) :
    ∀ (A B : List (Int × Int)), ordered fst_cmp A →
      (mergeLoop fst_cmp A B).1.filter (fun x => decide (x.1 = k)) =
        A.filter (fun x => decide (x.1 = k)) ++
          B.filter (fun x => decide (x.1 = k)) := by
  intro A
  induction A with
  | nil => intro B _; rw [mergeLoop]; simp
  | cons a l1 ihA =>
    intro B
    induction B with
    | nil =>
      intro hA
      have he : (mergeLoop fst_cmp (a :: l1) []).1 = a :: l1 := by
        rw [mergeLoop] <;> simp
      rw [he]
      simp
    | cons b l2 ihB =>
      intro hA
      rw [mergeLoop]
      by_cases hc : fst_cmp a b = true
      · rw [if_pos hc]
        have htail : ordered fst_cmp l1 := by
          rw [ordered] at hA ⊢
          exact (List.chain'_cons'.mp hA).2
        by_cases hak : a.1 = k
        · rw [List.filter_cons_of_pos (by simpa using hak),
            List.filter_cons_of_pos (by simpa using hak)]
          rw [List.cons_append]
          rw [ihA (b :: l2) htail]
        · rw [List.filter_cons_of_neg (by simpa using hak),
            List.filter_cons_of_neg (by simpa using hak)]
          rw [ihA (b :: l2) htail]
      · rw [if_neg hc]
        have hba : b.1 < a.1 := by
          simp only [fst_cmp, decide_eq_true_eq] at hc
          omega
        by_cases hbk : b.1 = k
        · have hAnil : (a :: l1).filter (fun x => decide (x.1 = k)) = [] := by
            rw [List.filter_eq_nil]
            intro x hx
            have hax : fst_cmp a x = true := by
              rcases List.mem_cons.mp hx with rfl | hx'
              · rcases fst_cmp_total x x with h | h <;> exact h
              · exact ordered_cons_all fst_cmp_trans l1 a hA x hx'
            simp only [fst_cmp, decide_eq_true_eq] at hax
            simp only [decide_eq_true_eq]
            omega
          rw [List.filter_cons_of_pos (by simpa using hbk), ihB hA, hAnil,
            List.filter_cons_of_pos (by simpa using hbk)]
          simp
        · have hM := ihB hA
          simp only [List.filter_cons] at hM ⊢
          simp [hbk, hM]

/-- What `merge` writes into `v[lo..hi)` is exactly the merge loop's
output on the two halves. -/
theorem merge_seg {v : List α} {lo hi : Nat} (hlo : lo ≤ hi)
    (hhi : hi ≤ v.length) :
    seg (merge cmp v lo hi).1 lo hi =
      (mergeLoop cmp (seg v lo (lo + (hi - lo) / 2))
        (seg v (lo + (hi - lo) / 2) hi)).1 := by
  have hm1 : lo ≤ lo + (hi - lo) / 2 := by omega
  have hm2 : lo + (hi - lo) / 2 ≤ hi := by omega
  have hulen :
      (mergeLoop cmp (seg v lo (lo + (hi - lo) / 2))
        (seg v (lo + (hi - lo) / 2) hi)).1.length = hi - lo := by
    have h := (@mergeLoop_perm α _ cmp (seg v lo (lo + (hi - lo) / 2))
      (seg v (lo + (hi - lo) / 2) hi)).length_eq
    rw [h, List.length_append, seg_length (by omega) hm1, seg_length hhi hm2]
    omega
  have hm : (merge cmp v lo hi).1 = writeAt v lo
      (mergeLoop cmp (seg v lo (lo + (hi - lo) / 2))
        (seg v (lo + (hi - lo) / 2) hi)).1 := by
    rw [merge]
  rw [hm]
  have h := writeAt_seg (v := v) (u := (mergeLoop cmp (seg v lo (lo + (hi - lo) / 2))
    (seg v (lo + (hi - lo) / 2) hi)).1) (show lo ≤ v.length by omega)
  rwa [hulen, show lo + (hi - lo) = hi by omega] at h

/-- Stability of the ranged merge sort recursion: the filtered sublist of
any fixed key class inside `v[lo..hi)` is unchanged. -/
theorem merge_sort_helper_filter (k : Int) :
    ∀ (d : Nat) (v : List (Int × Int)) (lo hi : Nat), hi - lo ≤ d →
      hi ≤ v.length →
      (seg (merge_sort_helper fst_cmp v lo hi).1 lo hi).filter
          (fun x => decide (x.1 = k)) =
        (seg v lo hi).filter (fun x => decide (x.1 = k)) := by
  intro d
  induction d with
  | zero =>
    intro v lo hi hd hv
    rw [merge_sort_helper_base (by omega)]
  | succ d ih =>
    intro v lo hi hd hv
    by_cases h1 : hi - lo ≤ 1
    · rw [merge_sort_helper_base h1]
    · have hm1 : lo < lo + (hi - lo) / 2 := by omega
      have hm2 : lo + (hi - lo) / 2 < hi := by omega
      obtain ⟨ih1len, ih1take, ih1drop, ih1perm, ih1ord⟩ :=
        merge_sort_helper_spec fst_cmp_total d v lo (lo + (hi - lo) / 2)
          (by omega) (by omega)
      obtain ⟨ih2len, ih2take, ih2drop, ih2perm, ih2ord⟩ :=
        merge_sort_helper_spec fst_cmp_total d
          (merge_sort_helper fst_cmp v lo (lo + (hi - lo) / 2)).1
          (lo + (hi - lo) / 2) hi (by omega) (by omega)
      have hf1 := ih v lo (lo + (hi - lo) / 2) (by omega) (by omega)
      have hf2 := ih (merge_sort_helper fst_cmp v lo (lo + (hi - lo) / 2)).1
        (lo + (hi - lo) / 2) hi (by omega) (by omega)
      have hsegA : seg (merge_sort_helper fst_cmp
          (merge_sort_helper fst_cmp v lo (lo + (hi - lo) / 2)).1
          (lo + (hi - lo) / 2) hi).1 lo (lo + (hi - lo) / 2) =
          seg (merge_sort_helper fst_cmp v lo (lo + (hi - lo) / 2)).1
            lo (lo + (hi - lo) / 2) :=
        seg_congr_take ih2take lo
      have hsegB : seg (merge_sort_helper fst_cmp v lo (lo + (hi - lo) / 2)).1
          (lo + (hi - lo) / 2) hi = seg v (lo + (hi - lo) / 2) hi :=
        seg_congr_drop ih1drop hi
      rw [merge_sort_helper_eq h1]
      rw [merge_seg (by omega) (by omega : hi ≤ (merge_sort_helper fst_cmp
        (merge_sort_helper fst_cmp v lo (lo + (hi - lo) / 2)).1
        (lo + (hi - lo) / 2) hi).1.length)]
      rw [mergeLoop_filter k _ _ (by rw [hsegA]; exact ih1ord)]
      rw [hsegA, hf1]
      rw [hf2, hsegB]
      rw [← List.filter_append,
        seg_append v (by omega : lo ≤ lo + (hi - lo) / 2) (by omega)]

/-- Merge sort is stable: every key class keeps its original order. -/
theorem merge_sort_stable (v : List (Int × Int)) (k : Int) :
    (merge_sort fst_cmp v).1.filter (fun x => decide (x.1 = k)) =
      v.filter (fun x => decide (x.1 = k)) := by
  obtain ⟨hlen, -, -, -, -⟩ :=
    merge_sort_helper_spec fst_cmp_total v.length v 0 v.length le_rfl le_rfl
  have h := merge_sort_helper_filter k v.length v 0 v.length le_rfl le_rfl
  have hsegw := seg_self (merge_sort_helper fst_cmp v 0 v.length).1
  rw [hlen] at hsegw
  rw [hsegw, seg_self] at h
  rw [merge_sort]
  exact h

/-! ## Empty-vector behaviour of every sort -/

theorem selection_sort_nil : selection_sort cmp ([] : List α) = ([], 0) := by
  rw [selection_sort, selection_sort_loop]

theorem insertion_sort_nil : insertion_sort cmp ([] : List α) = ([], 0) := rfl

theorem bubble_sort_nil : bubble_sort cmp ([] : List α) = ([], 0) := by
  rw [bubble_sort, if_pos (by simp)]

theorem merge_sort_nil : merge_sort cmp ([] : List α) = ([], 0) := by
  rw [merge_sort, merge_sort_helper_base (by simp)]

theorem pmerge_sort_nil : pmerge_sort cmp ([] : List α) = ([], 0) := by
  rw [pmerge_sort, pmerge_sort_helper_base (by simp)]

theorem quick_sort_nil : quick_sort cmp ([] : List α) = ([], 0) := by
  rw [quick_sort, quick_sort_helper_base (by simp)]

theorem pquick_sort_nil : pquick_sort cmp ([] : List α) = ([], 0) := by
  rw [pquick_sort, pquick_sort_helper_base (by simp)]

theorem rpquick_sort_nil (rng : Nat → Nat) (r : Nat) :
    rpquick_sort cmp rng ([] : List α) r = ([], 0, r) := by
  rw [rpquick_sort, rpquick_sort_helper_base (by simp)]

theorem std_sort_nil : std_sort cmp ([] : List α) = ([], 0) := by
  rw [std_sort, merge_sort_nil]

/-! ## Where equal-to-pivot elements go in partition -/

theorem count_filter_true {p : Int → Bool} {a : Int} (hp : p a = true) :
    ∀ l : List Int, (l.filter p).count a = l.count a := by
  intro l
  induction l with
  | nil => rfl
  | cons x xs ih =>
    by_cases hxa : x = a
    · subst hxa
      rw [List.filter_cons_of_pos hp, List.count_cons_self, ih,
        List.count_cons_self]
    · by_cases hx : p x = true
      · rw [List.filter_cons_of_pos hx, List.count_cons_of_ne (Ne.symm hxa), ih,
          List.count_cons_of_ne (Ne.symm hxa)]
      · rw [List.filter_cons_of_neg (by simpa using hx), ih,
          List.count_cons_of_ne (Ne.symm hxa)]

/-- No element whose value equals the pivot's value ever reaches the
"not-less" buffer `u2`: the comparator returns true on ties, which routes
ties into the "less" buffer `u1`. -/
theorem partitionBuffers_count (v : List Int) (lo hi p : Nat) :
    (partitionBuffers sort_cmp v lo hi p).2.count (v.getD p default) = 0 ∧
    (partitionBuffers sort_cmp v lo hi p).1.count (v.getD p default) =
      ((seg v lo hi).eraseIdx (p - lo)).count (v.getD p default) := by
  constructor
  · rw [List.count_eq_zero]
    intro hmem
    have h := partitionBuffers_mem_right hmem
    rw [cmp_self sort_cmp_total] at h
    cases h
  · simp only [partitionBuffers]
    exact count_filter_true (p := fun x => sort_cmp x (v.getD p default))
      (cmp_self sort_cmp_total _) _

end Lemmas

/-! ## Lemmas about the animator's run-session model -/

theorem getD_map_range (f : Nat → List Int) {n i : Nat} (h : i < n) :
    ((List.range n).map f).getD i [] = f i := by
  have h1 : i < ((List.range n).map f).length := by simpa using h
  rw [List.getD_eq_getElem _ _ h1, List.getElem_map, List.getElem_range]

theorem getD_replicate {x : List Int} {n i : Nat} (h : i < n) :
    (List.replicate n x).getD i [] = x := by
  have h1 : i < (List.replicate n x).length := by simpa using h
  rw [List.getD_eq_getElem _ _ h1, List.getElem_replicate]

theorem map_range_getD (l : List Int) (n : Nat) (h : l.length = n) :
    (List.range n).map (fun j => l.getD j 0) = l := by
  apply List.ext_getElem (by simpa using h.symm)
  intro i h1 h2
  simp only [List.getElem_map, List.getElem_range]
  rw [List.getD_eq_getElem _ _ (by omega)]

/-- `sort_setup` pushes one queue index and one thread handle per selected
algorithm; with at least one selected algorithm it creates
`queue.length + 1` datasets (the shuffled base at index 0 and one working
copy per selected algorithm), and with none it creates none. -/
theorem sort_setup_spec (s : SortingAnimator) (shuffled : List Int) :
    (sort_setup s shuffled).sort_queue = selectedIdxs s.sort_algos ∧
    (sort_setup s shuffled).sort_threads =
      (selectedIdxs s.sort_algos).length ∧
    (0 < (selectedIdxs s.sort_algos).length →
      (sort_setup s shuffled).sort_data.length =
        (selectedIdxs s.sort_algos).length + 1) ∧
    ((selectedIdxs s.sort_algos).length = 0 →
      (sort_setup s shuffled).sort_data = s.sort_data) ∧
    (∀ j, j ≤ (selectedIdxs s.sort_algos).length →
      0 < (selectedIdxs s.sort_algos).length →
      (sort_setup s shuffled).sort_data.getD j [] = shuffled) := by
  rw [sort_setup]
  by_cases hq : (selectedIdxs s.sort_algos).length = 0
  · rw [if_pos hq]
    exact ⟨rfl, rfl, fun h => absurd hq (by omega), fun _ => rfl,
      fun j hj h => absurd hq (by omega)⟩
  · rw [if_neg hq]
    refine ⟨rfl, rfl, fun _ => by simp, fun h => absurd h hq, fun j hj _ => ?_⟩
    cases j with
    | zero => rfl
    | succ j =>
      show (List.replicate (selectedIdxs s.sort_algos).length shuffled).getD j [] =
        shuffled
      exact getD_replicate (by omega)

/-- `sort_launch` replaces dataset `i` by the result of running the
selected algorithm `sort_queue[i]` on it, for `i < sort_queue.length`, and
leaves every dataset at index `>= sort_queue.length` unchanged. -/
theorem sort_launch_spec (s : SortingAnimator) :
    (sort_launch s).sort_data.length = s.sort_data.length ∧
    (∀ i, i < s.sort_queue.length → i < s.sort_data.length →
      (sort_launch s).sort_data.getD i [] =
        (s.sort_algos.getD (s.sort_queue.getD i 0) default).sort
          (s.sort_data.getD i [])) ∧
    (∀ i, s.sort_queue.length ≤ i → i < s.sort_data.length →
      (sort_launch s).sort_data.getD i [] = s.sort_data.getD i []) := by
  refine ⟨by simp [sort_launch], fun i h1 h2 => ?_, fun i h1 h2 => ?_⟩
  · rw [sort_launch]
    show ((List.range s.sort_data.length).map _).getD i [] = _
    rw [getD_map_range _ h2, if_pos h1]
  · rw [sort_launch]
    show ((List.range s.sort_data.length).map _).getD i [] = _
    rw [getD_map_range _ h2, if_neg (by omega)]

/-- The restart action overwrites the first `sort_n` values of every
per-algorithm dataset (indices `< sort_queue.length`) with the values of
the dataset at index `sort_queue.length` — the extra copy no sort thread
ever touches — and leaves that source dataset unchanged. -/
theorem handle_key_sorted_R_spec (s : SortingAnimator)
    (hlen : s.sort_data.length = s.sort_queue.length + 1)
    (hrows : ∀ i, i < s.sort_data.length →
      (s.sort_data.getD i []).length = s.sort_n) :
    (∀ i, i ≤ s.sort_queue.length →
      (handle_key_sorted_R s).sort_data.getD i [] =
        s.sort_data.getD s.sort_queue.length []) ∧
    (handle_key_sorted_R s).mode = Mode.SORTING := by
  refine ⟨fun i hi => ?_, rfl⟩
  rw [handle_key_sorted_R]
  show ((List.range s.sort_data.length).map _).getD i [] = _
  rw [getD_map_range _ (by omega)]
  by_cases hlt : i < s.sort_queue.length
  · rw [if_pos hlt]
    have hbase : (s.sort_data.getD s.sort_queue.length []).length = s.sort_n :=
      hrows _ (by omega)
    rw [map_range_getD _ _ hbase]
    have hdrop : (s.sort_data.getD i []).drop s.sort_n = [] :=
      List.drop_eq_nil_of_le (le_of_eq (hrows i (by omega)))
    rw [hdrop, List.append_nil]
  · rw [if_neg hlt]
    have : i = s.sort_queue.length := by omega
    rw [this]

/-! ## Publish serialization: the mutex invariant -/

/-- Number of threads currently inside the locked body of
`sort_draw_data`. -/
def pubCount (s : PubState) : Nat :=
  s.pcs.countP (fun pc => decide (pc = PubPC.publishing))

theorem countP_replicate_idle (n : Nat) :
    (List.replicate n PubPC.idle).countP
      (fun pc => decide (pc = PubPC.publishing)) = 0 := by
  induction n with
  | zero => rfl
  | succ n ih =>
    rw [List.replicate_succ, List.countP_cons]
    simp [ih]

theorem countP_set_pc (p : PubPC → Bool) :
    ∀ (l : List PubPC) (i : Nat) (a : PubPC), i < l.length →
      (l.set i a).countP p + (if p (l.getD i PubPC.idle) = true then 1 else 0) =
        l.countP p + (if p a = true then 1 else 0) := by
  intro l
  induction l with
  | nil => intro i a h; simp at h
  | cons x xs ih =>
    intro i a h
    cases i with
    | zero =>
      simp only [List.set_cons_zero, List.countP_cons, List.getD_cons_zero]
      omega
    | succ i =>
      simp only [List.set_cons_succ, List.countP_cons, List.getD_cons_succ]
      have hih := ih i a (by simpa using h)
      omega

theorem one_pub_le_countP {l : List PubPC} {i : Nat} (hi : i < l.length)
    (hp : l.getD i PubPC.idle = PubPC.publishing) :
    1 ≤ l.countP (fun pc => decide (pc = PubPC.publishing)) := by
  rw [List.getD_eq_getElem _ _ hi] at hp
  have hmem : PubPC.publishing ∈ l := hp ▸ List.getElem_mem hi
  have hpos : 0 < l.countP (fun pc => decide (pc = PubPC.publishing)) := by
    rw [List.countP_pos]
    exact ⟨PubPC.publishing, hmem, by decide⟩
  omega

theorem two_pub_le_countP :
    ∀ (l : List PubPC) (i j : Nat), i < l.length → j < l.length → i ≠ j →
      l.getD i PubPC.idle = PubPC.publishing →
      l.getD j PubPC.idle = PubPC.publishing →
      2 ≤ l.countP (fun pc => decide (pc = PubPC.publishing)) := by
  intro l
  induction l with
  | nil => intro i j hi; simp at hi
  | cons x xs ih =>
    intro i j hi hj hne hpi hpj
    cases i with
    | zero =>
      cases j with
      | zero => exact absurd rfl hne
      | succ j =>
        rw [List.getD_cons_zero] at hpi
        rw [List.getD_cons_succ] at hpj
        have h1 := one_pub_le_countP (by simpa using hj) hpj
        subst hpi
        rw [show (PubPC.publishing :: xs).countP
            (fun pc => decide (pc = PubPC.publishing)) =
            xs.countP (fun pc => decide (pc = PubPC.publishing)) + 1 from by
          rw [List.countP_cons]
          simp]
        omega
    | succ i =>
      cases j with
      | zero =>
        rw [List.getD_cons_zero] at hpj
        rw [List.getD_cons_succ] at hpi
        have h1 := one_pub_le_countP (by simpa using hi) hpi
        subst hpj
        rw [show (PubPC.publishing :: xs).countP
            (fun pc => decide (pc = PubPC.publishing)) =
            xs.countP (fun pc => decide (pc = PubPC.publishing)) + 1 from by
          rw [List.countP_cons]
          simp]
        omega
      | succ j =>
        rw [List.getD_cons_succ] at hpi hpj
        rw [List.countP_cons]
        have h2 := ih i j (by simpa using hi) (by simpa using hj)
          (by omega) hpi hpj
        omega

/-- Invariant of the publish transition system: when the mutex is free no
thread is inside the locked body, and there is never more than one inside
it. -/
theorem pub_reach_inv (n : Nat) :
    ∀ s, PubReach n s →
      (s.lock = false → pubCount s = 0) ∧ pubCount s ≤ 1 := by
  intro s h
  rw [PubReach] at h
  induction h with
  | refl =>
    constructor
    · intro _
      exact countP_replicate_idle n
    · rw [pubCount]
      show (List.replicate n PubPC.idle).countP _ ≤ 1
      rw [countP_replicate_idle n]
      omega
  | tail hab hstep ih =>
    rename_i b c
    cases hstep with
    | acquire i hi hpc hl =>
      have hzero := ih.1 hl
      rw [pubCount] at hzero ⊢
      have hset := countP_set_pc (fun pc => decide (pc = PubPC.publishing))
        b.pcs i PubPC.publishing hi
      rw [hpc] at hset
      simp at hset
      constructor
      · intro hcon
        cases hcon
      · show (b.pcs.set i PubPC.publishing).countP _ ≤ 1
        omega
    | release i hi hpc =>
      have hle := ih.2
      rw [pubCount] at hle ⊢
      have hset := countP_set_pc (fun pc => decide (pc = PubPC.publishing))
        b.pcs i PubPC.idle hi
      rw [hpc] at hset
      simp at hset
      constructor
      · intro _
        show (b.pcs.set i PubPC.idle).countP _ = 0
        omega
      · show (b.pcs.set i PubPC.idle).countP _ ≤ 1
        omega

/-! ## Claims -/

/-- A one-algorithm animator state used for concrete run scenarios: two
elements, with insertion sort as the single registered and selected
algorithm. -/
def exampleAnimator : SortingAnimator :=
  { mode := Mode.CONFIG
    sort_n := 2
    sort_algos := [⟨true, fun l => (insertion_sort sort_cmp l).1⟩]
    sort_data := []
    sort_queue := []
    sort_threads := 0 }

/-- C1: For every input vector and the value-ordering comparator, each of
the nine registered sort procedures (selection_sort, insertion_sort,
bubble_sort, merge_sort, pmerge_sort, quick_sort, pquick_sort,
rpquick_sort, std_sort) terminates with the vector being a permutation
(multiset-equal in values) of its input, and for every adjacent pair of
positions the comparator applied to them returns true (non-decreasing
order).  `rpquick_sort` is quantified over every `rand()` oracle and
stream position; `std_sort` is the spec-modelled host sort. -/
theorem claim_C1_all_sorts_permute_and_order (v : List Int) :
    (List.Perm (selection_sort sort_cmp v).1 v ∧
      ordered sort_cmp (selection_sort sort_cmp v).1) ∧
    (List.Perm (insertion_sort sort_cmp v).1 v ∧
      ordered sort_cmp (insertion_sort sort_cmp v).1) ∧
    (List.Perm (bubble_sort sort_cmp v).1 v ∧
      ordered sort_cmp (bubble_sort sort_cmp v).1) ∧
    (List.Perm (merge_sort sort_cmp v).1 v ∧
      ordered sort_cmp (merge_sort sort_cmp v).1) ∧
    (List.Perm (pmerge_sort sort_cmp v).1 v ∧
      ordered sort_cmp (pmerge_sort sort_cmp v).1) ∧
    (List.Perm (quick_sort sort_cmp v).1 v ∧
      ordered sort_cmp (quick_sort sort_cmp v).1) ∧
    (List.Perm (pquick_sort sort_cmp v).1 v ∧
      ordered sort_cmp (pquick_sort sort_cmp v).1) ∧
    (∀ (rng : Nat → Nat) (r : Nat),
      List.Perm (rpquick_sort sort_cmp rng v r).1 v ∧
        ordered sort_cmp (rpquick_sort sort_cmp rng v r).1) ∧
    (List.Perm (std_sort sort_cmp v).1 v ∧
      ordered sort_cmp (std_sort sort_cmp v).1) := by
  refine ⟨selection_sort_perm_ordered sort_cmp_total sort_cmp_trans v,
    insertion_sort_perm_ordered sort_cmp_total v,
    bubble_sort_perm_ordered sort_cmp_total sort_cmp_trans v,
    merge_sort_perm_ordered sort_cmp_total v, ?_,
    quick_sort_perm_ordered sort_cmp_total v,
    pquick_sort_perm_ordered sort_cmp_total v,
    fun rng r => rpquick_sort_perm_ordered sort_cmp_total rng v r,
    std_sort_perm_ordered sort_cmp_total v⟩
  rw [pmerge_sort_eq_merge_sort]
  exact merge_sort_perm_ordered sort_cmp_total v

/-- C2 counterexample: partitioning `[4,1,3,2,5]` with `lo = 0`, `hi = 5`
and pivot index `p = 2` (pivot value 3) returns 2 — not 1 — and settles
the pivot at index 2, not at index 1 (where value 2 ends up): both
elements 1 and 2 compare `<= 3`, so the "less" buffer has size 2. -/
theorem claim_C2_counterexample :
    (partition sort_cmp [4, 1, 3, 2, 5] 0 5 2).2.1 = 2 ∧
    (partition sort_cmp [4, 1, 3, 2, 5] 0 5 2).1 = [1, 2, 3, 4, 5] ∧
    ¬ (partition sort_cmp [4, 1, 3, 2, 5] 0 5 2).2.1 = 1 ∧
    ¬ (partition sort_cmp [4, 1, 3, 2, 5] 0 5 2).1.getD 1 0 = 3 := by
  decide

/-- C2 (amended): calling partition on the vector `[4,1,3,2,5]` with
`lo = 0`, `hi = 5` and pivot index `p = 2` (pivot value 3) leaves the
pivot value 3 settled at index 2 with the multiset `{1,2}` at the
positions to its left and `{4,5}` at the positions to its right, and
returns 2 (the count of "less" elements, into which ties would also go);
the comparison count is 4. -/
theorem claim_C2_amended :
    partition sort_cmp [4, 1, 3, 2, 5] 0 5 2 = ([1, 2, 3, 4, 5], 2, 4) ∧
    (partition sort_cmp [4, 1, 3, 2, 5] 0 5 2).1.getD 2 0 = 3 ∧
    List.Perm ((partition sort_cmp [4, 1, 3, 2, 5] 0 5 2).1.take 2) [1, 2] ∧
    List.Perm ((partition sort_cmp [4, 1, 3, 2, 5] 0 5 2).1.drop 3) [4, 5] := by
  decide

/-- C3 counterexample: with the value comparator (true iff
`a.value <= b.value`), partitioning `[2,2]` over `[0,2)` with pivot index
0 sends the non-pivot element equal to the pivot into the "less" buffer
`u1`, not into the "not-less" buffer `u2`: the scanned elements contain
one copy of value 2 but `u2` contains none (`u1 = [2]`, `u2 = []`). -/
theorem claim_C3_counterexample :
    (partitionBuffers sort_cmp [2, 2] 0 2 0).2.count 2 = 0 ∧
    ((seg ([2, 2] : List Int) 0 2).eraseIdx 0).count 2 = 1 ∧
    (partitionBuffers sort_cmp [2, 2] 0 2 0).1 = [2] ∧
    (partitionBuffers sort_cmp [2, 2] 0 2 0).2 = [] := by
  decide

/-- C3 (amended): for every vector, range `[lo, hi)` and pivot index in
that range, partition places every non-pivot element whose value equals
the pivot's value into the "less" buffer `u1` and none into the
"not-less" buffer `u2`, because the comparator returns true iff the first
value is `<=` the second and therefore returns true on ties. -/
theorem claim_C3_amended (v : List Int) (lo hi p : Nat)
    (h1 : lo ≤ p) (h2 : p < hi) (h3 : hi ≤ v.length) :
    (partitionBuffers sort_cmp v lo hi p).2.count (v.getD p default) = 0 ∧
    (partitionBuffers sort_cmp v lo hi p).1.count (v.getD p default) =
      ((seg v lo hi).eraseIdx (p - lo)).count (v.getD p default) :=
  partitionBuffers_count v lo hi p

/-- Witness for C3: the amended statement evaluated on `[2,2,3]` with the
pivot at index 1. -/
theorem claim_C3_witness :
    (partitionBuffers sort_cmp [2, 2, 3] 0 3 1).2.count
        (([2, 2, 3] : List Int).getD 1 default) = 0 ∧
    (partitionBuffers sort_cmp [2, 2, 3] 0 3 1).1.count
        (([2, 2, 3] : List Int).getD 1 default) =
      ((seg ([2, 2, 3] : List Int) 0 3).eraseIdx 1).count
        (([2, 2, 3] : List Int).getD 1 default) :=
  claim_C3_amended [2, 2, 3] 0 3 1 (by decide) (by decide) (by decide)

/-- C4: merge_sort is stable — for every input over (key, tag) pairs with
the comparator on the key field only, every key class keeps its original
relative order in the output (stated as: filtering the output by any key
equals filtering the input by that key), because the merge step prefers
the left-run element whenever the comparator returns true; in particular
merge sort on `[(5,a),(3,b),(5,c)]` yields `[(3,b),(5,a),(5,c)]` (tags
`a, b, c` encoded as `0, 1, 2`). -/
theorem claim_C4_merge_sort_stable :
    (∀ (v : List (Int × Int)) (k : Int),
      (merge_sort fst_cmp v).1.filter (fun x => decide (x.1 = k)) =
        v.filter (fun x => decide (x.1 = k))) ∧
    (merge_sort fst_cmp [(5, 0), (3, 1), (5, 2)]).1 =
      [(3, 1), (5, 0), (5, 2)] := by
  refine ⟨merge_sort_stable, ?_⟩
  rw [merge_sort]
  show (merge_sort_helper fst_cmp [(5, 0), (3, 1), (5, 2)] 0 3).1 =
    [(3, 1), (5, 0), (5, 2)]
  rw [merge_sort_helper_eq (show ¬ (3 : Nat) - (0 : Nat) ≤ 1 by norm_num)]
  norm_num
  rw [merge_sort_helper_base (show (1 : Nat) - (0 : Nat) ≤ 1 by norm_num)]
  norm_num
  rw [merge_sort_helper_eq (show ¬ (3 : Nat) - (1 : Nat) ≤ 1 by norm_num)]
  norm_num
  rw [merge_sort_helper_base (show (2 : Nat) - (1 : Nat) ≤ 1 by norm_num),
    merge_sort_helper_base (show (3 : Nat) - (2 : Nat) ≤ 1 by norm_num)]
  simp [merge, mergeLoop, seg, writeAt, fst_cmp]

/-- C5 counterexample: a completed run of the example animator on the
shuffled base `[2,1]` leaves copy 0 sorted as `[1,2]`, but the restart
key sets copy 0 back to `[2,1]` — the values of the untouched dataset at
index `sort_queue.size()` — and not to the first copy's final values. -/
theorem claim_C5_counterexample :
    (sort_launch (sort_setup exampleAnimator [2, 1])).sort_data.getD 0 [] =
      [1, 2] ∧
    (handle_key_sorted_R
        (sort_launch (sort_setup exampleAnimator [2, 1]))).sort_data.getD 0 [] =
      [2, 1] ∧
    ¬ (handle_key_sorted_R
        (sort_launch (sort_setup exampleAnimator [2, 1]))).sort_data.getD 0 [] =
      (sort_launch (sort_setup exampleAnimator [2, 1])).sort_data.getD 0 [] := by
  decide

/-- C5 (amended): after a completed run, the restart action (`R` in the
sorted state) sets the values of every per-algorithm copy to the values
of the dataset at index `sort_queue.size()` — the extra copy never
touched by any sort, which still holds the original shuffled base
permutation — and these, not the first copy's post-sort values, become
the new base for the restarted run. -/
theorem claim_C5_amended (s : SortingAnimator)
    (hlen : s.sort_data.length = s.sort_queue.length + 1)
    (hrows : ∀ i, i < s.sort_data.length →
      (s.sort_data.getD i []).length = s.sort_n) :
    (∀ i, i ≤ s.sort_queue.length →
      (handle_key_sorted_R s).sort_data.getD i [] =
        s.sort_data.getD s.sort_queue.length []) ∧
    (handle_key_sorted_R s).mode = Mode.SORTING :=
  handle_key_sorted_R_spec s hlen hrows

/-- Witness for the amended C5: the restart action on the completed
example run sets copy 0 to the base dataset's values. -/
theorem claim_C5_witness :
    (handle_key_sorted_R
        (sort_launch (sort_setup exampleAnimator [2, 1]))).sort_data.getD 0 [] =
      (sort_launch (sort_setup exampleAnimator [2, 1])).sort_data.getD 1 [] := by
  have h := claim_C5_amended (sort_launch (sort_setup exampleAnimator [2, 1]))
    (by decide)
    (by
      intro i hi
      have hcase : i = 0 ∨ i = 1 := by
        have hlen2 : (sort_launch
            (sort_setup exampleAnimator [2, 1])).sort_data.length = 2 := by
          decide
        omega
      rcases hcase with rfl | rfl
      · decide
      · decide)
  have h0 := h.1 0 (by decide)
  have hq : (sort_launch
      (sort_setup exampleAnimator [2, 1])).sort_queue.length = 1 := by decide
  rwa [hq] at h0

/-- C6: for every run session created with k selected algorithms, the
number of per-algorithm dataset copies created at run setup equals the
number of thread handles and the number of queued selected-algorithm
indices (all equal to k): `sort_queue` and the thread-handle count both
have length k, and `sort_data` holds the k per-algorithm copies (indices
`0..k-1`, the datasets `sort_launch` hands to the k threads) plus the
base dataset at index k, i.e. `k + 1` datasets in total. -/
theorem claim_C6_session_counts (s : SortingAnimator) (shuffled : List Int)
    (k : Nat) (hk : k = (selectedIdxs s.sort_algos).length) :
    (sort_setup s shuffled).sort_queue.length = k ∧
    (sort_setup s shuffled).sort_threads = k ∧
    (0 < k → (sort_setup s shuffled).sort_data.length = k + 1) := by
  obtain ⟨h1, h2, h3, -, -⟩ := sort_setup_spec s shuffled
  subst hk
  exact ⟨by rw [h1], h2, h3⟩

/-- Witness for C6: the example animator has one selected algorithm, and
setup produces one queued index, one thread handle and two datasets. -/
theorem claim_C6_witness :
    (sort_setup exampleAnimator [2, 1]).sort_queue.length = 1 ∧
    (sort_setup exampleAnimator [2, 1]).sort_threads = 1 ∧
    (sort_setup exampleAnimator [2, 1]).sort_data.length = 2 := by
  obtain ⟨h1, h2, h3⟩ :=
    claim_C6_session_counts exampleAnimator [2, 1] 1 (by decide)
  exact ⟨h1, h2, h3 (by decide)⟩

/-- C7: for every input vector of any size, every `rand()` oracle (hence
every sequence of pivot choices, each taken modulo the current range
size) and every stream position, the randomized parallel quicksort
recursion reaches its size-`<= 1` base cases within recursion depth
`N + 1`: the fuel-indexed mirror of `rpquick_sort` succeeds with fuel
`N + 1` and agrees with the total function — each partition call settles
the pivot inside the range, so both sub-ranges are strictly smaller. -/
theorem claim_C7_rpquick_terminates (v : List Int) (rng : Nat → Nat) (r : Nat) :
    rpquick_sort_fuel sort_cmp rng (v.length + 1) v 0 v.length r =
      some (rpquick_sort sort_cmp rng v r) ∧
    (rpquick_sort_fuel sort_cmp rng (v.length + 1) v 0 v.length r).isSome = true := by
  have h := @rpquick_sort_fuel_eq_helper Int _ sort_cmp rng (v.length + 1) v 0
    v.length r (by omega) (by omega)
  rw [rpquick_sort]
  exact ⟨h, by rw [h]; rfl⟩

/-- C8: on the empty input vector every one of the nine sort procedures
returns immediately with the vector unchanged and zero comparator
invocations, for every comparator (and, for the randomized sort, every
`rand()` oracle and stream position, which it leaves unread). -/
theorem claim_C8_empty_input (cmp : Int → Int → Bool) (rng : Nat → Nat)
    (r : Nat) :
    selection_sort cmp [] = ([], 0) ∧
    insertion_sort cmp [] = ([], 0) ∧
    bubble_sort cmp [] = ([], 0) ∧
    merge_sort cmp [] = ([], 0) ∧
    pmerge_sort cmp [] = ([], 0) ∧
    quick_sort cmp [] = ([], 0) ∧
    pquick_sort cmp [] = ([], 0) ∧
    rpquick_sort cmp rng [] r = ([], 0, r) ∧
    std_sort cmp [] = ([], 0) :=
  ⟨selection_sort_nil, insertion_sort_nil, bubble_sort_nil, merge_sort_nil,
    pmerge_sort_nil, quick_sort_nil, pquick_sort_nil, rpquick_sort_nil rng r,
    std_sort_nil⟩

/-- C9: setup with k selected algorithms creates k+1 datasets (indices
0..k), all initialized to the same shuffled permutation of 1..N; the run
mutates dataset `i < k` into exactly the result of its own algorithm on
that shared base, and the dataset at index k is never touched — after the
run completes it still holds the original shuffled base permutation (the
source the restart action copies from). -/
theorem claim_C9_frame (s : SortingAnimator) (shuffled : List Int)
    (hk : 0 < (selectedIdxs s.sort_algos).length)
    (hperm : List.Perm shuffled (List.range' 1 s.sort_n)) :
    (sort_setup s shuffled).sort_data.length =
      (selectedIdxs s.sort_algos).length + 1 ∧
    (∀ j, j ≤ (selectedIdxs s.sort_algos).length →
      (sort_setup s shuffled).sort_data.getD j [] = shuffled) ∧
    (∀ j, j ≤ (selectedIdxs s.sort_algos).length →
      List.Perm ((sort_setup s shuffled).sort_data.getD j [])
        (List.range' 1 s.sort_n)) ∧
    (∀ i, i < (selectedIdxs s.sort_algos).length →
      (sort_launch (sort_setup s shuffled)).sort_data.getD i [] =
        (s.sort_algos.getD ((selectedIdxs s.sort_algos).getD i 0)
          default).sort shuffled) ∧
    (sort_launch (sort_setup s shuffled)).sort_data.getD
      (selectedIdxs s.sort_algos).length [] = shuffled := by
  obtain ⟨hq, -, hdl, -, hdget⟩ := sort_setup_spec s shuffled
  have halgos : (sort_setup s shuffled).sort_algos = s.sort_algos := by
    rw [sort_setup]
    split
    · rfl
    · rfl
  obtain ⟨hllen, hlin, hlout⟩ := sort_launch_spec (sort_setup s shuffled)
  refine ⟨hdl hk, fun j hj => hdget j hj hk,
    fun j hj => by rw [hdget j hj hk]; exact hperm, fun i hi => ?_, ?_⟩
  · rw [hlin i (by rw [hq]; exact hi) (by rw [hdl hk]; omega)]
    rw [halgos, hq, hdget i (by omega) hk]
  · rw [hlout (selectedIdxs s.sort_algos).length (by rw [hq])
      (by rw [hdl hk]; omega)]
    exact hdget _ le_rfl hk

/-- Witness for C9: the example run on base `[2,1]`. -/
theorem claim_C9_witness :
    (sort_setup exampleAnimator [2, 1]).sort_data.length = 2 ∧
    (sort_launch (sort_setup exampleAnimator [2, 1])).sort_data.getD 1 [] =
      [2, 1] := by
  obtain ⟨h1, -, -, -, h5⟩ := claim_C9_frame exampleAnimator [2, 1]
    (by decide) (by decide)
  exact ⟨h1, h5⟩

/-- C10: publish calls are mutually exclusive — in every state reachable
by the publish transition system (which models `sort_draw_data`'s body
running between `window_m.lock()` and `window_m.unlock()`), no two
distinct threads are inside the locked publish body at the same time,
because a single exclusive lock serializes entry. -/
theorem claim_C10_publish_serialized (n : Nat) (s : PubState)
    (h : PubReach n s) (i j : Nat) (hi : i < s.pcs.length)
    (hj : j < s.pcs.length) (hne : i ≠ j) :
    ¬ (s.pcs.getD i PubPC.idle = PubPC.publishing ∧
       s.pcs.getD j PubPC.idle = PubPC.publishing) := by
  intro hcon
  have h2 := two_pub_le_countP s.pcs i j hi hj hne hcon.1 hcon.2
  have h1 := (pub_reach_inv n s h).2
  rw [pubCount] at h1
  omega

/-- Witness for C10: in the reachable two-thread state where thread 0
has entered the publish body, threads 0 and 1 are not both publishing. -/
theorem claim_C10_witness :
    ¬ ((⟨true, [PubPC.publishing, PubPC.idle]⟩ : PubState).pcs.getD 0
        PubPC.idle = PubPC.publishing ∧
       (⟨true, [PubPC.publishing, PubPC.idle]⟩ : PubState).pcs.getD 1
        PubPC.idle = PubPC.publishing) := by
  have hstep : PubStep (pubInit 2)
      ⟨true, [PubPC.publishing, PubPC.idle]⟩ := by
    have h := PubStep.acquire (pubInit 2) 0 (by decide) (by decide) rfl
    exact h
  exact claim_C10_publish_serialized 2 ⟨true, [PubPC.publishing, PubPC.idle]⟩
    (Relation.ReflTransGen.single hstep) 0 1 (by decide) (by decide)
    (by decide)

end SortAnim
